import Mathlib

/-
Verification development for the kopia/repo block layer.

The Go sources embedded here:
  - block/builder.go            (packIndexBuilder: Add, sortedBlocks, Build,
                                 prepareExtraData, writeEntry, formatEntry)
  - block/committed_block_index_disk_cache.go (addBlockToCache, writeTempFileAtomic)
  - storage/logging              (loggingStorage pass-through wrapper)
plus spec-modelled components whose sources are not in this snapshot
(the object writer and the block manager's recovery path).

Machine integers are modelled as Nat with explicit `% 2^w` at the points
where Go performs fixed-width conversions or where overflow can occur.
Byte sequences are `List Nat` with each element intended `< 256` (the
encoders only emit values `< 256` by construction).
-/

namespace Kopia

/-! ## Byte-level helpers (big-endian encoders, mirroring encoding/binary) -/

/-- Big-endian 16-bit encoding, mirroring binary.BigEndian.PutUint16.
The argument is reduced mod 2^16 as the Go uint16 conversion would. -/
def u16be (n : Nat) : List Nat :=
  [n / 2 ^ 8 % 256, n % 256]

/-- Big-endian 32-bit encoding, mirroring binary.BigEndian.PutUint32. -/
def u32be (n : Nat) : List Nat :=
  [n / 2 ^ 24 % 256, n / 2 ^ 16 % 256, n / 2 ^ 8 % 256, n % 256]

/-- Big-endian 64-bit encoding, mirroring binary.BigEndian.PutUint64. -/
def u64be (n : Nat) : List Nat :=
  [n / 2 ^ 56 % 256, n / 2 ^ 48 % 256, n / 2 ^ 40 % 256, n / 2 ^ 32 % 256,
   n / 2 ^ 24 % 256, n / 2 ^ 16 % 256, n / 2 ^ 8 % 256, n % 256]

/-- Big-endian decoding of a byte list (the reading direction of the
encoders above; used only to state properties of encoded fields). -/
def beDecode (bs : List Nat) : Nat :=
  bs.foldl (fun acc b => acc * 256 + b) 0

/-- Go's `byte(i)` conversion of a signed int: the low 8 bits of the
two's-complement representation (so `byte(-1) = 255`). -/
def intToU8 (i : Int) : Nat :=
  (i % 256).toNat

/-- Go's `uint32(i)` conversion of a signed int: low 32 bits of the
two's-complement representation. -/
def intToU32 (i : Int) : Nat :=
  (i % 2 ^ 32).toNat

/-! ## UTF-8 bytes of a string (Go's `[]byte(s)` and `len(s)`) -/

/-- UTF-8 encoding of a single character, as Go would produce for the
corresponding rune. -/
def charUtf8 (c : Char) : List Nat :=
  let n := c.toNat
  if n < 0x80 then [n]
  else if n < 0x800 then [0xC0 + n / 64, 0x80 + n % 64]
  else if n < 0x10000 then [0xE0 + n / 4096, 0x80 + n / 64 % 64, 0x80 + n % 64]
  else [0xF0 + n / 262144, 0x80 + n / 4096 % 64, 0x80 + n / 64 % 64, 0x80 + n % 64]

/-- UTF-8 bytes of a string: Go's `[]byte(s)`. -/
def strBytes (s : String) : List Nat :=
  s.data.foldr (fun c acc => charUtf8 c ++ acc) []

/-- Byte length of a string: Go's `len(s)` (UTF-8 byte count, not the
character count). -/
def goLen (s : String) : Nat :=
  (strBytes s).length

/-! ## Content IDs

The function `contentIDToBytes` lives in a file of package `block` that is
not part of this snapshot; only its callers in builder.go are. -/

/-- Value of a lowercase-hex digit character, if it is one. -/
def hexDigitVal (c : Char) : Option Nat :=
  let n := c.toNat
  if 48 ≤ n ∧ n ≤ 57 then some (n - 48)
  else if 97 ≤ n ∧ n ≤ 102 then some (n - 87)
  else none

/-- Decoding of a list of hex-digit characters taken in consecutive pairs;
none when a non-digit appears or the count is odd (hex.DecodeString error). -/
def hexDecodeChars : List Char → Option (List Nat)
  | [] => some []
  | [_] => none
  | c1 :: c2 :: rest =>
    match hexDigitVal c1, hexDigitVal c2, hexDecodeChars rest with
    | some h, some l, some bs => some ((h * 16 + l) :: bs)
    | _, _, _ => none

/-- Modelled from the spec: `contentIDToBytes` is missing from the snapshot.
Per the spec, a content ID is lowercase hexadecimal whose first byte may carry
a one-character namespace marker, and it is serialized in index entries as a
fixed-width byte string. An odd-length ID therefore keeps its first character
as a literal byte and hex-decodes the rest; an even-length ID hex-decodes
whole. An undecodable ID yields the empty byte string (the Go path returns
nil on a hex decoding error). -/
def contentIDToBytes (c : String) : List Nat :=
  match c.data with
  | [] => []
  | c0 :: rest =>
    if (c0 :: rest).length % 2 = 1 then
      match hexDecodeChars rest with
      | some bs => c0.toNat % 256 :: bs
      | none => []
    else
      match hexDecodeChars (c0 :: rest) with
      | some bs => bs
      | none => []

/-! ## Block info (block.Info)

Go declares `Length`, `PackOffset` as uint32, `TimestampSeconds` as int64
(never negative in this codebase), `FormatVersion` as byte. These are
modelled as Nat; theorems that depend on the fixed widths carry the
corresponding range hypotheses. -/

/-- One block's index entry data, mirroring the Go struct block.Info. -/
structure Info where
  BlockID : String
  Length : Nat
  TimestampSeconds : Nat
  PackFile : String
  PackOffset : Nat
  Deleted : Bool
  Payload : List Nat
  FormatVersion : Nat
deriving DecidableEq, Repr

/-- Go-type well-formedness of an Info: each field value fits the declared
fixed-width Go type (uint32, int64, byte). -/
def Info.GoTyped (i : Info) : Prop :=
  i.Length < 2 ^ 32 ∧ i.PackOffset < 2 ^ 32 ∧
  i.TimestampSeconds < 2 ^ 63 ∧ i.FormatVersion < 2 ^ 8

instance (i : Info) : Decidable i.GoTyped :=
  inferInstanceAs (Decidable (i.Length < 2 ^ 32 ∧ i.PackOffset < 2 ^ 32 ∧
    i.TimestampSeconds < 2 ^ 63 ∧ i.FormatVersion < 2 ^ 8))

/-! ## packIndexBuilder (block/builder.go)

The Go type is `map[string]*Info`, keyed by `Info.BlockID`. It is modelled
as a list of Infos with pairwise-distinct BlockIDs (the invariant the Go
map enforces by construction). -/

/-- The builder: the contents of the Go `map[string]*Info`. -/
def packIndexBuilder := List Info

/-- Lookup in the builder by block ID (the Go map read `b[id]`). -/
def findInfo (b : List Info) (id : String) : Option Info :=
  b.find? (fun o => o.BlockID == id)

/-- Distinctness of keys: the invariant of the Go map representation. -/
def builderWF (b : List Info) : Prop :=
  b.Pairwise (fun o1 o2 => o1.BlockID ≠ o2.BlockID)

instance (b : List Info) : Decidable (builderWF b) :=
  inferInstanceAs (Decidable (b.Pairwise (fun o1 o2 : Info => o1.BlockID ≠ o2.BlockID)))

/-- Add (builder.go:15-20): inserts the info, or replaces the entry already
present for the same BlockID when the new timestamp is greater *or equal*
(the Go condition is `!ok || i.TimestampSeconds >= old.TimestampSeconds`). -/
def Add (b : List Info) (i : Info) : List Info :=
  match findInfo b i.BlockID with
  | none => i :: b
  | some old =>
    if old.TimestampSeconds ≤ i.TimestampSeconds then
      b.map (fun o => if o.BlockID == i.BlockID then i else o)
    else b

/-- Go's `<` on strings: lexicographic on the UTF-8 bytes, equivalently on
the code points (UTF-8 is order-preserving). -/
def goStrLt : List Char → List Char → Bool
  | [], [] => false
  | [], _ :: _ => true
  | _ :: _, [] => false
  | a :: as, b :: bs =>
    if a.toNat < b.toNat then true
    else if b.toNat < a.toNat then false
    else goStrLt as bs

/-- The relation sortedBlocks sorts by (builder.go:29-31): ascending
BlockID strings in Go's string order, as a non-strict relation for the
sort. -/
def blockIDLe (a b : Info) : Prop :=
  goStrLt b.BlockID.data a.BlockID.data = false

instance : DecidableRel blockIDLe :=
  fun a b => inferInstanceAs (Decidable (goStrLt b.BlockID.data a.BlockID.data = false))

/-- sortedBlocks (builder.go:22-34): all entries of the map, sorted by
ascending BlockID. (Go's sort.Slice is unstable, but keys are distinct in a
map, so the sorted list is unique; insertion sort realizes it.) -/
def sortedBlocks (b : List Info) : List Info :=
  b.insertionSort blockIDLe

/-! ## Build (builder.go:44-147) -/

/-- Lookup in the packFileOffsets table (the Go map read). -/
def lookupOffset (offs : List (String × Nat)) (k : String) : Option Nat :=
  (offs.find? (fun p => p.1 == k)).map (fun p => p.2)

/-- The loop body of prepareExtraData (builder.go:87-100) over the sorted
blocks: records each referenced non-empty PackFile once, at the byte offset
inside extraData where its bytes land (`uint32(len(extraData))`), and panics
when an inline payload is present. An `Except.error` models the Go panic. -/
def extraLoop : List Info → List (String × Nat) → List Nat →
    Except String (List (String × Nat) × List Nat)
  | [], offs, ed => .ok (offs, ed)
  | it :: rest, offs, ed =>
    let st :=
      if it.PackFile ≠ "" then
        match lookupOffset offs it.PackFile with
        | some _ => (offs, ed)
        | none => (offs ++ [(it.PackFile, ed.length % 2 ^ 32)], ed ++ strBytes it.PackFile)
      else (offs, ed)
    if 0 < it.Payload.length then .error "storing payloads in indexes is not supported"
    else extraLoop rest st.1 st.2

/-- The key length prepareExtraData records (builder.go:88-90): set from the
first sorted block, left at the initial -1 for an empty builder. -/
def keyLengthOf (allBlocks : List Info) : Int :=
  match allBlocks with
  | [] => -1
  | it :: _ => ((contentIDToBytes it.BlockID).length : Int)

/-- extraDataOffset (builder.go:101): `uint32(8 + entryCount*(keyLength+entryLength))`
with entryLength = 20, computed in signed int arithmetic then converted. -/
def extraDataOffsetOf (entryCount : Nat) (keyLength : Int) : Nat :=
  intToU32 (8 + (entryCount : Int) * (keyLength + 20))

/-- formatEntry (builder.go:125-147): the 20-byte entry body. Errors on an
empty PackFile; otherwise writes, big-endian:
  bytes 0..8   timestampAndFlags = ts<<16 | formatVersion<<8 | len(PackFile)
  bytes 8..12  extraDataOffset + packFileOffsets[PackFile]
  bytes 12..16 PackOffset, with bit 31 forced on when Deleted
  bytes 16..20 Length. -/
def formatEntry (it : Info) (extraDataOffset : Nat) (offs : List (String × Nat)) :
    Except String (List Nat) :=
  if goLen it.PackFile = 0 then .error "empty pack block ID"
  else
    let taf1 := it.TimestampSeconds % 2 ^ 64 * 2 ^ 16 % 2 ^ 64
    let taf2 := taf1 ||| (it.FormatVersion % 2 ^ 64 * 2 ^ 8 % 2 ^ 64)
    let taf := taf2 ||| (goLen it.PackFile % 2 ^ 64)
    let pfOff := (extraDataOffset + (lookupOffset offs it.PackFile).getD 0) % 2 ^ 32
    let packedOffset :=
      if it.Deleted then (it.PackOffset % 2 ^ 32) ||| 2 ^ 31 else it.PackOffset % 2 ^ 32
    .ok (u64be taf ++ u32be pfOff ++ u32be packedOffset ++ u32be (it.Length % 2 ^ 32))

/-- writeEntry (builder.go:105-123): key bytes followed by the entry body,
after checking the key length against the layout's key length. -/
def writeEntry (it : Info) (keyLength : Int) (extraDataOffset : Nat)
    (offs : List (String × Nat)) : Except String (List Nat) :=
  let k := contentIDToBytes it.BlockID
  if (k.length : Int) ≠ keyLength then .error "inconsistent key length"
  else
    match formatEntry it extraDataOffset offs with
    | .error e => .error e
    | .ok entry => .ok (k ++ entry)

/-- The entry-writing loop of Build (builder.go:70-75). -/
def entriesLoop (keyLength : Int) (extraDataOffset : Nat) (offs : List (String × Nat)) :
    List Info → Except String (List Nat)
  | [] => .ok []
  | it :: rest =>
    match writeEntry it keyLength extraDataOffset offs with
    | .error e => .error e
    | .ok e =>
      match entriesLoop keyLength extraDataOffset offs rest with
      | .error e2 => .error e2
      | .ok restBytes => .ok (e ++ restBytes)

/-- Outcome of Build: the fully-buffered output bytes, a returned error, or
a Go panic (the distinct process-crashing outcome of builder.go:98). -/
inductive BuildResult where
  | ok (bytes : List Nat)
  | error (msg : String)
  | panicked (msg : String)
deriving DecidableEq, Repr

/-- Build (builder.go:44-82): sorts the entries, prepares the extra-data
section, writes the 8-byte header (version 1, key length as a byte, entry
length 20 as u16, entry count as u32), the sorted entries, then the extra
data. The output is all-or-nothing (bufio flush at the end). -/
def Build (b : List Info) : BuildResult :=
  let allBlocks := sortedBlocks b
  let keyLength := keyLengthOf allBlocks
  let entryCount := allBlocks.length
  match extraLoop allBlocks [] [] with
  | .error m => .panicked m
  | .ok (offs, extraData) =>
    let extraDataOffset := extraDataOffsetOf entryCount keyLength
    let header := 1 :: intToU8 keyLength :: (u16be 20 ++ u32be (entryCount % 2 ^ 32))
    match entriesLoop keyLength extraDataOffset offs allBlocks with
    | .error m => .error m
    | .ok entriesBytes => .ok (header ++ entriesBytes ++ extraData)

/-! ## SHA-256 and HMAC-SHA256

The object layer derives object IDs with the repository's keyed hash; the
test repository's default format is HMAC-SHA256 with an empty secret (its
fixed vectors match exactly that function). SHA-256 is implemented here
over Nat with explicit mod 2^32, executable by kernel reduction. -/

/-- Right rotation of a 32-bit word. -/
def rotr32 (x n : Nat) : Nat :=
  ((x >>> n) ||| (x <<< (32 - n))) % 2 ^ 32

/-- SHA-256 choose function (not x is x xor 2^32-1 on 32-bit words). -/
def shaCh (x y z : Nat) : Nat := (x &&& y) ^^^ ((x ^^^ 0xffffffff) &&& z)

/-- SHA-256 majority function. -/
def shaMaj (x y z : Nat) : Nat := (x &&& y) ^^^ (x &&& z) ^^^ (y &&& z)

/-- SHA-256 big sigma 0. -/
def shaS0 (x : Nat) : Nat := rotr32 x 2 ^^^ rotr32 x 13 ^^^ rotr32 x 22

/-- SHA-256 big sigma 1. -/
def shaS1 (x : Nat) : Nat := rotr32 x 6 ^^^ rotr32 x 11 ^^^ rotr32 x 25

/-- SHA-256 small sigma 0. -/
def shaLo0 (x : Nat) : Nat := rotr32 x 7 ^^^ rotr32 x 18 ^^^ (x >>> 3)

/-- SHA-256 small sigma 1. -/
def shaLo1 (x : Nat) : Nat := rotr32 x 17 ^^^ rotr32 x 19 ^^^ (x >>> 10)

/-- The 64 SHA-256 round constants (FIPS 180-4, written in decimal). -/
def shaK : List Nat :=
  [1116352408, 1899447441, 3049323471, 3921009573, 961987163, 1508970993,
   2453635748, 2870763221, 3624381080, 310598401, 607225278, 1426881987,
   1925078388, 2162078206, 2614888103, 3248222580, 3835390401, 4022224774,
   264347078, 604807628, 770255983, 1249150122, 1555081692, 1996064986,
   2554220882, 2821834349, 2952996808, 3210313671, 3336571891, 3584528711,
   113926993, 338241895, 666307205, 773529912, 1294757372, 1396182291,
   1695183700, 1986661051, 2177026350, 2456956037, 2730485921, 2820302411,
   3259730800, 3345764771, 3516065817, 3600352804, 4094571909, 275423344,
   430227734, 506948616, 659060556, 883997877, 958139571, 1322822218,
   1537002063, 1747873779, 1955562222, 2024104815, 2227730452, 2361852424,
   2428436474, 2756734187, 3204031479, 3329325298]

/-- The SHA-256 initial hash value (FIPS 180-4, written in decimal). -/
def shaH0 : List Nat :=
  [1779033703, 3144134277, 1013904242, 2773480762,
   1359893119, 2600822924, 528734635, 1541459225]

/-- Big-endian 32-bit words from bytes, four at a time. -/
def bytesToWords : List Nat → List Nat
  | b0 :: b1 :: b2 :: b3 :: rest => (((b0 * 256 + b1) * 256 + b2) * 256 + b3) :: bytesToWords rest
  | _ => []

/-- Message-schedule extension: runs the given number of steps, each
appending w[t] from w[t-2], w[t-7], w[t-15], w[t-16]. -/
def extendLoop : Nat → List Nat → List Nat
  | 0, ws => ws
  | n + 1, ws =>
    let t := ws.length
    let w := (shaLo1 (ws.getD (t - 2) 0) + ws.getD (t - 7) 0 +
              shaLo0 (ws.getD (t - 15) 0) + ws.getD (t - 16) 0) % 2 ^ 32
    extendLoop n (ws ++ [w])

/-- The SHA-256 working state: the eight 32-bit registers a..h. -/
structure ShaState where
  a : Nat
  b : Nat
  c : Nat
  d : Nat
  e : Nat
  f : Nat
  g : Nat
  h : Nat

/-- One SHA-256 round with constant k and schedule word w. -/
def shaRound (s : ShaState) (k w : Nat) : ShaState :=
  let t1 := (s.h + shaS1 s.e + shaCh s.e s.f s.g + k + w) % 2 ^ 32
  let t2 := (shaS0 s.a + shaMaj s.a s.b s.c) % 2 ^ 32
  { a := (t1 + t2) % 2 ^ 32, b := s.a, c := s.b, d := s.c,
    e := (s.d + t1) % 2 ^ 32, f := s.e, g := s.f, h := s.g }

/-- The 64-round loop over the paired constants and schedule words. -/
def roundLoop : List Nat → List Nat → ShaState → ShaState
  | k :: ks, w :: ws, s => roundLoop ks ws (shaRound s k w)
  | _, _, s => s

/-- Compression of one 64-byte block into the chaining value (8 words). -/
def shaCompress (h : List Nat) (block : List Nat) : List Nat :=
  let ws := extendLoop 48 (bytesToWords block)
  let s0 : ShaState :=
    { a := h.getD 0 0, b := h.getD 1 0, c := h.getD 2 0, d := h.getD 3 0,
      e := h.getD 4 0, f := h.getD 5 0, g := h.getD 6 0, h := h.getD 7 0 }
  let s := roundLoop shaK ws s0
  [(h.getD 0 0 + s.a) % 2 ^ 32, (h.getD 1 0 + s.b) % 2 ^ 32,
   (h.getD 2 0 + s.c) % 2 ^ 32, (h.getD 3 0 + s.d) % 2 ^ 32,
   (h.getD 4 0 + s.e) % 2 ^ 32, (h.getD 5 0 + s.f) % 2 ^ 32,
   (h.getD 6 0 + s.g) % 2 ^ 32, (h.getD 7 0 + s.h) % 2 ^ 32]

/-- SHA-256 padding: 0x80, zeros to 56 mod 64, then the bit length as a
big-endian u64. -/
def shaPad (msg : List Nat) : List Nat :=
  let L := msg.length
  msg ++ 0x80 :: List.replicate ((55 - L % 64 + 64) % 64) 0 ++ u64be (8 * L % 2 ^ 64)

/-- Splitting into 64-byte blocks (fuel-based so kernel reduction works;
the fuel is an upper bound on the number of blocks). -/
def chunksGo : Nat → List Nat → List (List Nat)
  | 0, _ => []
  | _ + 1, [] => []
  | n + 1, l => l.take 64 :: chunksGo n (l.drop 64)

/-- The padded message as 64-byte blocks. -/
def chunks64 (l : List Nat) : List (List Nat) := chunksGo l.length l

/-- SHA-256 of a byte sequence, as 32 digest bytes. -/
def sha256 (msg : List Nat) : List Nat :=
  let final := (chunks64 (shaPad msg)).foldl shaCompress shaH0
  final.foldr (fun w acc => u32be w ++ acc) []

/-- HMAC-SHA256 with the given key, per RFC 2104 (block size 64). -/
def hmacSha256 (key msg : List Nat) : List Nat :=
  let k0 := if 64 < key.length then sha256 key else key
  let k := k0 ++ List.replicate (64 - k0.length) 0
  sha256 ((k.map (fun b => b ^^^ 0x5c)) ++ sha256 ((k.map (fun b => b ^^^ 0x36)) ++ msg))

/-- Lowercase hex digit character of a value below 16. -/
def hexDigitChar (n : Nat) : Char :=
  Char.ofNat (if n < 10 then 48 + n else 87 + n)

/-- Lowercase hex string of a byte sequence. -/
def toHex (bs : List Nat) : String :=
  String.mk (bs.foldr (fun b acc => hexDigitChar (b / 16 % 16) :: hexDigitChar (b % 16) :: acc) [])

/-! ## Object writer (spec-modelled)

The object layer's writer is not part of this snapshot; only its tests
are. -/

/-- Modelled from the spec: the object writer of the object layer (absent
from the snapshot) accumulates the written byte stream; the object ID it
returns is derived only from the accumulated content, by the repository's
keyed content hash — for the test repository's default format,
HMAC-SHA256 with an empty secret, printed as lowercase hex. -/
structure ObjectWriter where
  buffer : List Nat

/-- A fresh writer with nothing written. -/
def ObjectWriter.new : ObjectWriter := { buffer := [] }

/-- Write appends the chunk to the accumulated stream. -/
def ObjectWriter.write (w : ObjectWriter) (chunk : List Nat) : ObjectWriter :=
  { buffer := w.buffer ++ chunk }

/-- Result returns the object ID of the accumulated content. -/
def ObjectWriter.result (w : ObjectWriter) : String :=
  toHex (hmacSha256 [] w.buffer)

/-! ## Disk-backed committed index cache
(block/committed_block_index_disk_cache.go:50-101)

The cache directory is a flat map from file name to contents, plus a flag
for the directory's own existence. Failure injection (stat errors, a failed
write or close, a lost rename race, a concurrent install of the same ID) is
supplied by an environment record, so each run of addBlockToCache is a pure
function of the file system and the environment. -/

/-- The cache directory's state. -/
structure CacheFS where
  dirExists : Bool
  files : List (String × List Nat)
deriving DecidableEq, Repr

/-- File lookup by name. -/
def fsLookup (fs : CacheFS) (name : String) : Option (List Nat) :=
  (fs.files.find? (fun p => p.1 == name)).map (fun p => p.2)

/-- Create or replace a file. -/
def fsPut (fs : CacheFS) (name : String) (data : List Nat) : CacheFS :=
  { fs with files := (name, data) :: fs.files.filter (fun p => !(p.1 == name)) }

/-- Remove a file. -/
def fsRemove (fs : CacheFS) (name : String) : CacheFS :=
  { fs with files := fs.files.filter (fun p => !(p.1 == name)) }

/-- Failure injection for one run of addBlockToCache. -/
structure CacheEnv where
  statErr1 : Bool
  tmpName : String
  writeErr : Bool
  closeErr : Bool
  renameErr : Bool
  concurrentPut : Option (List Nat)
  statErr2 : Bool
deriving DecidableEq, Repr

/-- addBlockToCache (committed_block_index_disk_cache.go:50-78) together
with writeTempFileAtomic (:80-101): no-op if the `<id>.sndx` file exists;
otherwise write the bytes to the fresh temp file (creating the directory on
demand if temp-file creation failed with not-found), close it, and rename it
into place; on a rename failure re-check presence (a concurrent process may
have installed the same ID) and fail only if the file is still absent. -/
def addBlockToCache (env : CacheEnv) (fs : CacheFS) (id : String) (data : List Nat) :
    Except String Unit × CacheFS :=
  let target := id ++ ".sndx"
  if env.statErr1 then (.error "stat error", fs)
  else if (fsLookup fs target).isSome then (.ok (), fs)
  else
    let fs1 := { fs with dirExists := true }
    let fs2 := fsPut fs1 env.tmpName []
    if env.writeErr then (.error "can't write to temp file", fs2)
    else
      let fs3 := fsPut fs2 env.tmpName data
      if env.closeErr then (.error "can't close tmp file", fs3)
      else if ¬ env.renameErr then (.ok (), fsPut (fsRemove fs3 env.tmpName) target data)
      else
        let fs4 :=
          match env.concurrentPut with
          | some d => fsPut fs3 target d
          | none => fs3
        if env.statErr2 then (.error "stat error", fs4)
        else if (fsLookup fs4 target).isSome then (.ok (), fs4)
        else (.error "unsuccessful index write of block", fs4)

/-! ## Logging storage wrapper (storage/logging)

The wrapped store is an arbitrary record of result functions; the listing
operation is callback-driven, realized by a shared driver that also records
the invocation trace, so the pass-through property can be stated for the
callback as well. Each wrapper method returns the wrapped store's result
together with the formatted log lines it emits. -/

/-- The metadata ListBlocks hands to the callback (storage.BlockMetadata). -/
structure BlockMetadata where
  blockID : String
  length : Nat
  timestamp : Nat
deriving DecidableEq, Repr

/-- An arbitrary blob store: the results each operation would produce.
Go's `([]byte, error)` pairs become `List Nat × Option String`. Listing is
described by the stream of metadata the store produces for a given blob-ID
prefix string and the store's own return value when the callback never
errs. -/
structure GoStorage where
  getBlock : String → Int → Int → List Nat × Option String
  putBlock : String → List Nat → Option String
  deleteBlock : String → Option String
  listItems : String → List BlockMetadata
  listTailErr : String → Option String
  closeResult : Option String
  connectionInfo : String

/-- Driver for callback-based listing: invokes the callback per item until
it errs, propagating the callback's return; also yields the trace of
invocations made. -/
def runList (cb : BlockMetadata → Option String) (tailErr : Option String) :
    List BlockMetadata → Option String × List BlockMetadata
  | [] => (tailErr, [])
  | x :: xs =>
    match cb x with
    | some e => (some e, [x])
    | none =>
      let r := runList cb tailErr xs
      (r.1, x :: r.2)

/-- The wrapped store's own ListBlocks: run the callback over the stream. -/
def baseListBlocks (s : GoStorage) (pre : String) (cb : BlockMetadata → Option String) :
    Option String × List BlockMetadata :=
  runList cb (s.listTailErr pre) (s.listItems pre)

/-- loggingStorage.GetBlock: forwards, then prints one line whose shape
depends on the result size (under 20 bytes it prints the bytes, otherwise
the length). -/
def loggingGetBlock (s : GoStorage) (pfx id : String) (off len : Int) :
    (List Nat × Option String) × List String :=
  let result := s.getBlock id off len
  if result.1.length < 20 then (result, [pfx ++ "GetBlock(" ++ id ++ ") full"])
  else (result, [pfx ++ "GetBlock(" ++ id ++ ") length"])

/-- loggingStorage.PutBlock: forwards and prints one line. -/
def loggingPutBlock (s : GoStorage) (pfx id : String) (data : List Nat) :
    Option String × List String :=
  (s.putBlock id data, [pfx ++ "PutBlock(" ++ id ++ ")"])

/-- loggingStorage.DeleteBlock: forwards and prints one line. -/
def loggingDeleteBlock (s : GoStorage) (pfx id : String) :
    Option String × List String :=
  (s.deleteBlock id, [pfx ++ "DeleteBlock(" ++ id ++ ")"])

/-- loggingStorage.ListBlocks: forwards with a callback wrapper that counts
invocations and calls the caller's callback, then prints one line with the
count; returns the wrapped store's return value. -/
def loggingListBlocks (s : GoStorage) (pfx pre : String)
    (cb : BlockMetadata → Option String) :
    (Option String × List BlockMetadata) × List String :=
  let r := runList (fun bi => cb bi) (s.listTailErr pre) (s.listItems pre)
  (r, [pfx ++ "ListBlocks(" ++ pre ++ ") count " ++ toString r.2.length])

/-- loggingStorage.Close: forwards and prints one line. -/
def loggingClose (s : GoStorage) (pfx : String) : Option String × List String :=
  (s.closeResult, [pfx ++ "Close()"])

/-- loggingStorage.ConnectionInfo: forwards without printing. -/
def loggingConnectionInfo (s : GoStorage) : String :=
  s.connectionInfo

/-! ## Block manager recovery (spec-modelled)

The block manager itself is not part of this snapshot; only its recovery
test is. The store is modelled at the granularity the recovery contract
needs: blobs are either pack blobs (a list of (content ID, payload) in
insertion order, standing for the concatenated payloads plus the embedded
trailing block table) or index blobs (a list of recovered infos, standing
for one encoded pack index). -/

/-- Modelled from the spec: one reconstructed info as recovery yields it
from a pack's embedded block table. -/
structure RInfo where
  blockID : String
  packFile : String
  packOffset : Nat
  length : Nat
  timestampSeconds : Nat
  deleted : Bool
deriving DecidableEq, Repr

/-- A blob held by the blob store, at the structure recovery reads. -/
inductive Blob where
  | pack (entries : List (String × List Nat))
  | index (infos : List RInfo)
deriving DecidableEq, Repr

/-- Blob lookup by ID. -/
def storeLookup (st : List (String × Blob)) (id : String) : Option Blob :=
  (st.find? (fun p => p.1 == id)).map (fun p => p.2)

/-- The reserved one-character namespace marker of index blobs. -/
def indexMark : String := "n"

/-- Whether the blob ID begins with the given namespace marker (a
character-level check, Go's strings.HasPrefix on the ID). -/
def hasMark (mark id : String) : Bool :=
  List.isPrefixOf mark.data id.data

/-- Cumulative-offset reconstruction of a pack's block table: each entry's
offset is the total length of the payloads before it. -/
def packInfosGo (pid : String) (off : Nat) : List (String × List Nat) → List RInfo
  | [] => []
  | (cid, payload) :: rest =>
    { blockID := cid, packFile := pid, packOffset := off, length := payload.length,
      timestampSeconds := 0, deleted := false } :: packInfosGo pid (off + payload.length) rest

/-- The infos a pack blob's embedded table describes. -/
def packInfos (pid : String) (entries : List (String × List Nat)) : List RInfo :=
  packInfosGo pid 0 entries

/-- Modelled from the spec: RecoverIndexFromPackFile reads the pack blob,
parses its embedded trailing block table, and yields the reconstructed
infos; with commit=true they are folded into a new index blob exactly as in
a flush (here: the new index blob, under a fresh index-namespace ID, is
added to the store), with commit=false they are returned without any
persistent change. -/
def RecoverIndexFromPackFile (st : List (String × Blob)) (packID newIndexID : String)
    (commit : Bool) : Except String (List RInfo × List (String × Blob)) :=
  match storeLookup st packID with
  | some (.pack entries) =>
    let infos := packInfos packID entries
    if commit then .ok (infos, st ++ [(newIndexID, .index infos)])
    else .ok (infos, st)
  | _ => .error "block not found"

/-- Run of RecoverIndexFromPackFile over a list of (pack ID, fresh index
blob ID) jobs, threading the store and concatenating the returned infos. -/
def recoverAll (st : List (String × Blob)) (commit : Bool) :
    List (String × String) → Except String (List RInfo × List (String × Blob))
  | [] => .ok ([], st)
  | (pid, nid) :: rest =>
    match RecoverIndexFromPackFile st pid nid commit with
    | .error e => .error e
    | .ok (infos, st1) =>
      match recoverAll st1 commit rest with
      | .error e => .error e
      | .ok (infosRest, st2) => .ok (infos ++ infosRest, st2)

/-- All infos of the active index blobs: the union of every index blob
whose ID carries the index namespace marker. -/
def activeIndexInfos (st : List (String × Blob)) : List RInfo :=
  (st.filter (fun p => hasMark indexMark p.1)).foldr
    (fun p acc =>
      (match p.2 with
       | .index infos => infos
       | .pack _ => []) ++ acc) []

/-- Modelled from the spec: conflict resolution across index hits is by
greater timestamp, ties broken by deleted over live. -/
def betterInfo (a b : RInfo) : RInfo :=
  if a.timestampSeconds < b.timestampSeconds then b
  else if b.timestampSeconds < a.timestampSeconds then a
  else if b.deleted then b else a

/-- The winning info among the candidates, none when there is none. -/
def pickBest : List RInfo → Option RInfo
  | [] => none
  | i :: rest =>
    match pickBest rest with
    | none => some i
    | some j => some (betterInfo i j)

/-- Range read from a pack blob: the byte range of the concatenation of its
payloads (the blob store's range-get on the pack file). -/
def readPackBytes (st : List (String × Blob)) (pid : String) (off len : Nat) :
    Option (List Nat) :=
  match storeLookup st pid with
  | some (.pack entries) =>
    some (((entries.foldr (fun e acc => e.2 ++ acc) []).drop off).take len)
  | _ => none

/-- Modelled from the spec: a block manager Get — look up the content ID
across the active index blobs, select the winner, honor tombstones, and
fetch the payload's byte range from its pack file; none is the
block-not-found outcome. -/
def lookupContent (st : List (String × Blob)) (cid : String) : Option (List Nat) :=
  match pickBest ((activeIndexInfos st).filter (fun i => i.blockID == cid)) with
  | none => none
  | some i => if i.deleted then none else readPackBytes st i.packFile i.packOffset i.length

/-- The pack entries a pack blob holds, empty when absent or not a pack. -/
def entriesOf (st : List (String × Blob)) (pid : String) : List (String × List Nat) :=
  match storeLookup st pid with
  | some (.pack entries) => entries
  | _ => []

/-- Concatenation of a pack's payloads in insertion order (the pack file's
data region). -/
def flattenPayloads (entries : List (String × List Nat)) : List Nat :=
  entries.foldr (fun e acc => e.2 ++ acc) []

/-- All pack entries the recovery jobs cover, in job order. -/
def jobEntries (st : List (String × Blob)) (jobs : List (String × String)) :
    List (String × List Nat) :=
  jobs.foldr (fun j acc => entriesOf st j.1 ++ acc) []

/-- The infos recovery reconstructs across the jobs, in job order. -/
def jobInfos (st : List (String × Blob)) (jobs : List (String × String)) : List RInfo :=
  jobs.foldr (fun j acc => packInfos j.1 (entriesOf st j.1) ++ acc) []

/-- The index blobs a committing recovery run adds, one per job. -/
def newBlobs (st : List (String × Blob)) (jobs : List (String × String)) :
    List (String × Blob) :=
  jobs.map (fun j => (j.2, Blob.index (packInfos j.1 (entriesOf st j.1))))

/-! ## Layout characterization of Build (for the index-format claims)

These definitions restate, piecewise, what the Build path produces on its
success path; the theorems below prove them equal to Build's output. -/

/-- The 20-byte entry body formatEntry writes on success (the .ok payload
of formatEntry, spelled out). -/
def entryBodyBytes (it : Info) (extraDataOffset : Nat) (offs : List (String × Nat)) :
    List Nat :=
  u64be ((it.TimestampSeconds % 2 ^ 64 * 2 ^ 16 % 2 ^ 64 |||
          it.FormatVersion % 2 ^ 64 * 2 ^ 8 % 2 ^ 64) ||| goLen it.PackFile % 2 ^ 64) ++
  u32be ((extraDataOffset + (lookupOffset offs it.PackFile).getD 0) % 2 ^ 32) ++
  u32be (if it.Deleted then (it.PackOffset % 2 ^ 32) ||| 2 ^ 31 else it.PackOffset % 2 ^ 32) ++
  u32be (it.Length % 2 ^ 32)

/-- The full encoded entry: key bytes then the 20-byte body. -/
def entryEnc (it : Info) (extraDataOffset : Nat) (offs : List (String × Nat)) : List Nat :=
  contentIDToBytes it.BlockID ++ entryBodyBytes it extraDataOffset offs

/-- The pure part of the prepareExtraData loop (what extraLoop computes
when no inline payload is present). -/
def extraFold : List Info → List (String × Nat) → List Nat →
    List (String × Nat) × List Nat
  | [], offs, ed => (offs, ed)
  | it :: rest, offs, ed =>
    let st :=
      if it.PackFile ≠ "" then
        match lookupOffset offs it.PackFile with
        | some _ => (offs, ed)
        | none => (offs ++ [(it.PackFile, ed.length % 2 ^ 32)], ed ++ strBytes it.PackFile)
      else (offs, ed)
    extraFold rest st.1 st.2

/-- The referenced pack-file IDs in first-seen order, deduplicated
(the claim-side description of the extra-data section's contents). -/
def firstSeen : List Info → List String → List String
  | [], acc => acc
  | it :: rest, acc =>
    if it.PackFile ≠ "" then
      if acc.contains it.PackFile then firstSeen rest acc
      else firstSeen rest (acc ++ [it.PackFile])
    else firstSeen rest acc

/-- The natural-number key width of a sorted block list (0 for an empty
one, where the header stores the -1 sentinel instead). -/
def keyLenN (s : List Info) : Nat :=
  match s with
  | [] => 0
  | it :: _ => (contentIDToBytes it.BlockID).length

/-- The 20-byte body of the j-th encoded entry inside an index blob with
the given key width. -/
def entryBodyAt (out : List Nat) (klN j : Nat) : List Nat :=
  ((out.drop (8 + j * (klN + 20) + klN)).take 20)

/-- Exactness of a pack-file offset table with respect to the extra-data
bytes: each recorded offset slices the extra data back to the recorded
pack-file ID's bytes. -/
def OffsetsExact (offs : List (String × Nat)) (ed : List Nat) : Prop :=
  ∀ p ∈ offs, p.2 + goLen p.1 ≤ ed.length ∧
    (ed.drop p.2).take (goLen p.1) = strBytes p.1

/-! ## Concrete values used by the concrete instances below -/

/-- A second live info under key "bb", sharing pack file "p1". -/
def wInfoB : Info :=
  { BlockID := "bb", Length := 7, TimestampSeconds := 9, PackFile := "p1",
    PackOffset := 5, Deleted := true, Payload := [], FormatVersion := 2 }


/-- A concrete store with one pack blob and no index blobs. -/
def cStore : List (String × Blob) :=
  [("p1", Blob.pack [("aa", [1, 2]), ("bb", [3, 4, 5])])]

/-- The recovery job list for cStore. -/
def cJobs : List (String × String) := [("p1", "n1")]

/-- A live info with key "aa" and pack file "p1". -/
def cInfoA : Info :=
  { BlockID := "aa", Length := 5, TimestampSeconds := 5, PackFile := "p1",
    PackOffset := 0, Deleted := false, Payload := [], FormatVersion := 1 }

/-- The same key and timestamp as cInfoA but a different pack file. -/
def cInfoB : Info := { cInfoA with PackFile := "p2" }

/-- A tombstone for key "aa" at timestamp 5. -/
def tombInfo : Info :=
  { BlockID := "aa", Length := 0, TimestampSeconds := 5, PackFile := "p1",
    PackOffset := 0, Deleted := true, Payload := [], FormatVersion := 1 }

/-- A live info for key "aa" at the same timestamp 5. -/
def liveInfo : Info := { tombInfo with Deleted := false, PackFile := "p2", Length := 3 }

/-- An info carrying a non-empty inline payload. -/
def payloadInfo : Info :=
  { BlockID := "aa", Length := 1, TimestampSeconds := 5, PackFile := "p1",
    PackOffset := 0, Deleted := false, Payload := [42], FormatVersion := 1 }

/-- A second info carrying a non-empty inline payload, under another key. -/
def payloadInfo2 : Info :=
  { BlockID := "bb", Length := 2, TimestampSeconds := 6, PackFile := "p1",
    PackOffset := 9, Deleted := false, Payload := [1, 2], FormatVersion := 1 }

/-- A live info whose 32-bit pack offset has its high bit set. -/
def highOffsetInfo : Info :=
  { BlockID := "aa", Length := 5, TimestampSeconds := 7, PackFile := "p1",
    PackOffset := 2 ^ 31, Deleted := false, Payload := [], FormatVersion := 1 }

/-- A concrete two-entry builder. -/
def wBuilder : List Info := [cInfoA, wInfoB]

/-- The encoded index blob of wBuilder. -/
def wOut : List Nat :=
  [1, 1, 0, 20, 0, 0, 0, 2,
   170, 0, 0, 0, 0, 0, 5, 1, 2, 0, 0, 0, 50, 0, 0, 0, 0, 0, 0, 0, 5,
   187, 0, 0, 0, 0, 0, 9, 2, 2, 0, 0, 0, 50, 128, 0, 0, 5, 0, 0, 0, 7,
   112, 49]

/-- The encoded index blob of the single high-offset live info. -/
def hOut : List Nat :=
  [1, 1, 0, 20, 0, 0, 0, 1,
   170, 0, 0, 0, 0, 0, 7, 1, 2, 0, 0, 0, 29, 128, 0, 0, 0, 0, 0, 0, 5,
   112, 49]

/-! # Theorems -/

/-- Characters with equal code points are equal. -/
theorem charToNat_inj (a b : Char) (h : a.toNat = b.toNat) : a = b := by
  have h1 := Char.ofNat_toNat a
  rw [← h1, h, Char.ofNat_toNat]

/-- The Go string order is total as a non-strict relation. -/
theorem goStrLt_total : ∀ x y : List Char, goStrLt x y = false ∨ goStrLt y x = false := by
  intro x
  induction x with
  | nil =>
    intro y
    cases y with
    | nil => exact Or.inl rfl
    | cons b bs => exact Or.inr rfl
  | cons a as ih =>
    intro y
    cases y with
    | nil => exact Or.inl rfl
    | cons b bs =>
      by_cases hab : a.toNat < b.toNat
      · right
        show (if b.toNat < a.toNat then true
          else if a.toNat < b.toNat then false else goStrLt bs as) = false
        rw [if_neg (by omega : ¬ b.toNat < a.toNat), if_pos hab]
      · by_cases hba : b.toNat < a.toNat
        · left
          show (if a.toNat < b.toNat then true
            else if b.toNat < a.toNat then false else goStrLt as bs) = false
          rw [if_neg hab, if_pos hba]
        · rcases ih bs with h | h
          · left
            show (if a.toNat < b.toNat then true
              else if b.toNat < a.toNat then false else goStrLt as bs) = false
            rw [if_neg hab, if_neg hba]
            exact h
          · right
            show (if b.toNat < a.toNat then true
              else if a.toNat < b.toNat then false else goStrLt bs as) = false
            rw [if_neg hba, if_neg hab]
            exact h

/-- The Go string order is transitive as a non-strict relation. -/
theorem goStrLt_le_trans : ∀ x y z : List Char,
    goStrLt y x = false → goStrLt z y = false → goStrLt z x = false := by
  intro x
  induction x with
  | nil =>
    intro y z _ _
    cases z with
    | nil => rfl
    | cons c cs => rfl
  | cons a as ih =>
    intro y z h1 h2
    cases y with
    | nil => simp [goStrLt] at h1
    | cons b bs =>
      cases z with
      | nil => simp [goStrLt] at h2
      | cons c cs =>
        show (if c.toNat < a.toNat then true
          else if a.toNat < c.toNat then false else goStrLt cs as) = false
        have h1' : (if b.toNat < a.toNat then true
            else if a.toNat < b.toNat then false else goStrLt bs as) = false := h1
        have h2' : (if c.toNat < b.toNat then true
            else if b.toNat < c.toNat then false else goStrLt cs bs) = false := h2
        by_cases hba : b.toNat < a.toNat
        · rw [if_pos hba] at h1'
          exact absurd h1' (by decide)
        · rw [if_neg hba] at h1'
          by_cases hcb : c.toNat < b.toNat
          · rw [if_pos hcb] at h2'
            exact absurd h2' (by decide)
          · rw [if_neg hcb] at h2'
            rw [if_neg (by omega : ¬ c.toNat < a.toNat)]
            by_cases hab : a.toNat < b.toNat
            · rw [if_pos (by omega : a.toNat < c.toNat)]
            · rw [if_neg hab] at h1'
              by_cases hbc : b.toNat < c.toNat
              · rw [if_pos (by omega : a.toNat < c.toNat)]
              · rw [if_neg hbc] at h2'
                rw [if_neg (by omega : ¬ a.toNat < c.toNat)]
                exact ih bs cs h1' h2'

/-- The Go string order is connected: distinct strings compare strictly in
one direction. -/
theorem goStrLt_conn : ∀ x y : List Char, x ≠ y →
    goStrLt x y = true ∨ goStrLt y x = true := by
  intro x
  induction x with
  | nil =>
    intro y hne
    cases y with
    | nil => exact absurd rfl hne
    | cons b bs => exact Or.inl rfl
  | cons a as ih =>
    intro y hne
    cases y with
    | nil => exact Or.inr rfl
    | cons b bs =>
      by_cases hab : a.toNat < b.toNat
      · left
        show (if a.toNat < b.toNat then true
          else if b.toNat < a.toNat then false else goStrLt as bs) = true
        rw [if_pos hab]
      · by_cases hba : b.toNat < a.toNat
        · right
          show (if b.toNat < a.toNat then true
            else if a.toNat < b.toNat then false else goStrLt bs as) = true
          rw [if_pos hba]
        · have heq : a = b := charToNat_inj a b (by omega)
          subst heq
          have hne' : as ≠ bs := by
            intro h
            exact hne (by rw [h])
          rcases ih bs hne' with h | h
          · left
            show (if a.toNat < a.toNat then true
              else if a.toNat < a.toNat then false else goStrLt as bs) = true
            rw [if_neg (by omega), if_neg (by omega)]
            exact h
          · right
            show (if a.toNat < a.toNat then true
              else if a.toNat < a.toNat then false else goStrLt bs as) = true
            rw [if_neg (by omega), if_neg (by omega)]
            exact h

instance : IsTotal Info blockIDLe :=
  ⟨fun a b => goStrLt_total b.BlockID.data a.BlockID.data⟩

instance : IsTrans Info blockIDLe :=
  ⟨fun _ _ _ h1 h2 => goStrLt_le_trans _ _ _ h1 h2⟩

/-- Lookup in a singleton builder. -/
theorem findInfo_singleton (x : Info) (id : String) :
    findInfo [x] id = if (x.BlockID == id) = true then some x else none := by
  by_cases h : (x.BlockID == id) = true
  · simp [findInfo, List.find?, h]
  · have h' : (x.BlockID == id) = false := by simpa using h
    simp [findInfo, List.find?, h']

/-- Replacing the entry for a key that is present yields that key's new
entry on lookup. -/
theorem findInfo_map_replace (b : List Info) (i : Info)
    (h : (findInfo b i.BlockID).isSome) :
    findInfo (b.map (fun o => if o.BlockID == i.BlockID then i else o)) i.BlockID = some i := by
  induction b with
  | nil => simp [findInfo] at h
  | cons o rest ih =>
    by_cases ho : (o.BlockID == i.BlockID) = true
    · simp [findInfo, List.find?, ho]
    · have ho' : (o.BlockID == i.BlockID) = false := by simpa using ho
      have h' : (findInfo rest i.BlockID).isSome := by
        simpa [findInfo, List.find?, ho'] using h
      simpa [findInfo, List.find?, ho'] using ih h'

/-- Add on a singleton builder holding the same key: the entry with the
greater timestamp is retained, the freshly added info winning ties. -/
theorem add_singleton_hit (x y : Info) (hid : x.BlockID = y.BlockID) :
    Add [x] y = if x.TimestampSeconds ≤ y.TimestampSeconds then [y] else [x] := by
  have hxy : (x.BlockID == y.BlockID) = true := by simp [hid]
  have hfind : findInfo [x] y.BlockID = some x := by
    rw [findInfo_singleton, if_pos hxy]
  simp only [Add, hfind]
  by_cases hts : x.TimestampSeconds ≤ y.TimestampSeconds
  · rw [if_pos hts, if_pos hts]
    simp [hxy, hid]
  · rw [if_neg hts, if_neg hts]

/-- Claim C10: Build on an empty builder succeeds and writes exactly the
8-byte header: version byte 1, key-length byte 255 (the -1 sentinel
truncated to a byte, since no entry ever set it), entry-length 20,
entry-count 0, with no entries and no extra-data section. -/
theorem build_empty_index : Build [] = .ok [1, 255, 0, 20, 0, 0, 0, 0] := by decide

/-- Claim C3 counterexample: adding an info whose timestamp equals the
existing entry's does not keep the existing entry — the new info replaces
it (the Go condition is >=, not >). -/
theorem add_equal_ts_keeps_new_cex :
    findInfo (Add [cInfoA] cInfoB) "aa" = some cInfoB ∧ cInfoB ≠ cInfoA := by decide

/-- Claim C3 amended: when Add sees a content ID already present, a new
info with strictly greater or with equal timestamp replaces the existing
entry; only a strictly smaller timestamp leaves the builder unchanged. -/
theorem add_merge (b : List Info) (i old : Info)
    (hold : findInfo b i.BlockID = some old) :
    (old.TimestampSeconds < i.TimestampSeconds →
      findInfo (Add b i) i.BlockID = some i) ∧
    (old.TimestampSeconds = i.TimestampSeconds →
      findInfo (Add b i) i.BlockID = some i) ∧
    (i.TimestampSeconds < old.TimestampSeconds → Add b i = b) := by
  have hsome : (findInfo b i.BlockID).isSome := by rw [hold]; rfl
  refine ⟨?_, ?_, ?_⟩ <;> intro h
  · simp only [Add, hold, if_pos (le_of_lt h)]
    exact findInfo_map_replace b i hsome
  · simp only [Add, hold, if_pos (le_of_eq h)]
    exact findInfo_map_replace b i hsome
  · simp only [Add, hold, if_neg (not_le.mpr h)]

/-- Witness for add_merge at a concrete input with equal timestamps. -/
theorem add_merge_witness :
    findInfo [cInfoA] cInfoB.BlockID = some cInfoA ∧
    findInfo (Add [cInfoA] cInfoB) cInfoB.BlockID = some cInfoB :=
  ⟨by decide, (add_merge [cInfoA] cInfoB cInfoA (by decide)).2.1 (by decide)⟩

/-- Claim C2 counterexample: a tombstone and a live info with equal
timestamps added in the order tombstone-then-live leave the live info, not
the tombstone, as the retained entry. -/
theorem tombstone_tie_order_cex :
    tombInfo.Deleted = true ∧ liveInfo.Deleted = false ∧
    tombInfo.TimestampSeconds = liveInfo.TimestampSeconds ∧
    findInfo (Add (Add [] tombInfo) liveInfo) "aa" = some liveInfo := by decide

/-- Claim C2 amended: when a tombstone and a live info with equal
timestamps are merged by Add, the info added last is retained — the
tombstone wins exactly when it is added second; for unequal timestamps the
entry with the greater timestamp is retained in either order. -/
theorem tombstone_merge (d l : Info) (hid : d.BlockID = l.BlockID)
    (_hd : d.Deleted = true) (_hl : l.Deleted = false) :
    (d.TimestampSeconds = l.TimestampSeconds →
      findInfo (Add (Add [] d) l) l.BlockID = some l ∧
      findInfo (Add (Add [] l) d) d.BlockID = some d) ∧
    (d.TimestampSeconds < l.TimestampSeconds →
      findInfo (Add (Add [] d) l) l.BlockID = some l ∧
      findInfo (Add (Add [] l) d) d.BlockID = some l) ∧
    (l.TimestampSeconds < d.TimestampSeconds →
      findInfo (Add (Add [] d) l) d.BlockID = some d ∧
      findInfo (Add (Add [] l) d) d.BlockID = some d) := by
  have h1 : Add ([] : List Info) d = [d] := rfl
  have h2 : Add ([] : List Info) l = [l] := rfl
  have hld : (l.BlockID == d.BlockID) = true := by simp [hid]
  have hdd : (d.BlockID == d.BlockID) = true := by simp
  have hll : (l.BlockID == l.BlockID) = true := by simp
  refine ⟨?_, ?_, ?_⟩ <;> intro h
  · constructor
    · rw [h1, add_singleton_hit d l hid, if_pos (le_of_eq h),
        findInfo_singleton, if_pos hll]
    · rw [h2, add_singleton_hit l d hid.symm, if_pos (le_of_eq h.symm),
        findInfo_singleton, if_pos hdd]
  · constructor
    · rw [h1, add_singleton_hit d l hid, if_pos (le_of_lt h),
        findInfo_singleton, if_pos hll]
    · rw [h2, add_singleton_hit l d hid.symm, if_neg (not_le.mpr h),
        findInfo_singleton, if_pos hld]
  · constructor
    · rw [h1, add_singleton_hit d l hid, if_neg (not_le.mpr h),
        findInfo_singleton, if_pos hdd]
    · rw [h2, add_singleton_hit l d hid.symm, if_pos (le_of_lt h),
        findInfo_singleton, if_pos hdd]

/-- Witness for tombstone_merge at a concrete input with equal timestamps. -/
theorem tombstone_merge_witness :
    tombInfo.BlockID = liveInfo.BlockID ∧ tombInfo.Deleted = true ∧
    liveInfo.Deleted = false ∧
    (findInfo (Add (Add [] tombInfo) liveInfo) liveInfo.BlockID = some liveInfo ∧
     findInfo (Add (Add [] liveInfo) tombInfo) tombInfo.BlockID = some tombInfo) :=
  ⟨by decide, by decide, by decide,
   (tombstone_merge tombInfo liveInfo (by decide) (by decide) (by decide)).1 (by decide)⟩

/-- The extra-data loop reaches the panic whenever any info in the list
carries a non-empty inline payload. -/
theorem extraLoop_panics (l : List Info) (i : Info) (hi : i ∈ l)
    (hp : i.Payload ≠ []) (offs : List (String × Nat)) (ed : List Nat) :
    extraLoop l offs ed = .error "storing payloads in indexes is not supported" := by
  induction l generalizing offs ed with
  | nil => cases hi
  | cons o rest ih =>
    by_cases hop : 0 < o.Payload.length
    · simp only [extraLoop, if_pos hop]
    · rcases List.mem_cons.mp hi with rfl | hi
      · exact absurd (List.length_pos.mpr hp) hop
      · simp only [extraLoop, if_neg hop]
        exact ih hi _ _

/-- Claim C4 counterexample: Build on a builder holding an info with a
non-empty inline payload panics — it does not return an error value to the
caller. -/
theorem build_payload_panics_cex :
    Build [payloadInfo] = .panicked "storing payloads in indexes is not supported" := by decide

/-- Claim C4 amended: for every builder containing an info with a non-empty
inline payload, Build aborts by panicking (crashing the process) at encode
time, instead of returning an error to the caller. -/
theorem build_panics_on_payload (b : List Info) (i : Info) (hi : i ∈ b)
    (hp : i.Payload ≠ []) :
    Build b = .panicked "storing payloads in indexes is not supported" := by
  have hmem : i ∈ sortedBlocks b :=
    (List.perm_insertionSort blockIDLe b).mem_iff.mpr hi
  simp only [Build, extraLoop_panics (sortedBlocks b) i hmem hp [] []]

/-- Witness for build_panics_on_payload at a concrete input. -/
theorem build_panics_on_payload_witness :
    payloadInfo2 ∈ [cInfoA, payloadInfo2] ∧ payloadInfo2.Payload ≠ [] ∧
    Build [cInfoA, payloadInfo2] = .panicked "storing payloads in indexes is not supported" :=
  ⟨by decide, by decide, build_panics_on_payload [cInfoA, payloadInfo2] payloadInfo2 (by decide) (by decide)⟩

/-- Looking up the key just written by fsPut finds the written data. -/
theorem fsLookup_fsPut_same (fs : CacheFS) (n : String) (d : List Nat) :
    fsLookup (fsPut fs n d) n = some d := by
  simp [fsLookup, fsPut, List.find?]

/-- Filtering out entries of one key does not change lookups of another. -/
theorem find?_key_filter (files : List (String × List Nat)) (n m : String)
    (h : ¬ m = n) :
    ((files.filter (fun p => !(p.1 == n))).find? (fun p => p.1 == m)) =
      files.find? (fun p => p.1 == m) := by
  induction files with
  | nil => rfl
  | cons x rest ih =>
    by_cases hx : (x.1 == n) = true
    · have hx' : x.1 = n := by simpa using hx
      have hxm : (x.1 == m) = false := by
        simp only [hx']
        simpa using fun e => h e.symm
      simp [List.filter_cons, hx, List.find?, hxm, ih]
    · have hx' : (x.1 == n) = false := by simpa using hx
      by_cases hxm : (x.1 == m) = true
      · simp [List.filter_cons, hx', List.find?, hxm]
      · have hxm' : (x.1 == m) = false := by simpa using hxm
        simp [List.filter_cons, hx', List.find?, hxm', ih]

/-- Looking up a different key after fsPut sees the previous state. -/
theorem fsLookup_fsPut_other (fs : CacheFS) (n m : String) (d : List Nat)
    (h : ¬ m = n) :
    fsLookup (fsPut fs n d) m = fsLookup fs m := by
  have hnm : (n == m) = false := by simpa using fun e => h e.symm
  simp [fsLookup, fsPut, List.find?, hnm, find?_key_filter fs.files n m h]

/-- Looking up the key just removed by fsRemove finds nothing. -/
theorem fsLookup_fsRemove_same (fs : CacheFS) (n : String) :
    fsLookup (fsRemove fs n) n = none := by
  suffices h : ∀ files : List (String × List Nat),
      (files.filter (fun p => !(p.1 == n))).find? (fun p => p.1 == n) = none by
    simp [fsLookup, fsRemove, h fs.files]
  intro files
  induction files with
  | nil => rfl
  | cons x rest ih =>
    by_cases hx : (x.1 == n) = true
    · simp [List.filter_cons, hx, ih]
    · have hx' : (x.1 == n) = false := by simpa using hx
      simp [List.filter_cons, hx', List.find?, ih]

/-- Claim C8: addBlockToCache is a success no-op when the `<id>.sndx` file
is already present; otherwise it writes the bytes to the fresh temp file,
closes it, and renames it into place, so the file then holds the bytes and
the temp name is gone; when the rename fails it re-checks presence,
returning success when the file exists (installed by a concurrent process)
and the error only when the file is still absent. -/
theorem addBlockToCache_contract (env : CacheEnv) (fs : CacheFS) (id : String)
    (data d : List Nat)
    (h1 : env.statErr1 = false) (h2 : env.statErr2 = false)
    (hfresh : ¬ env.tmpName = id ++ ".sndx") :
    ((fsLookup fs (id ++ ".sndx")).isSome →
      addBlockToCache env fs id data = (.ok (), fs)) ∧
    (fsLookup fs (id ++ ".sndx") = none → env.writeErr = false → env.closeErr = false →
      env.renameErr = false →
      (addBlockToCache env fs id data).1 = .ok () ∧
      fsLookup (addBlockToCache env fs id data).2 (id ++ ".sndx") = some data ∧
      fsLookup (addBlockToCache env fs id data).2 env.tmpName = none) ∧
    (fsLookup fs (id ++ ".sndx") = none → env.writeErr = false → env.closeErr = false →
      env.renameErr = true → env.concurrentPut = some d →
      (addBlockToCache env fs id data).1 = .ok ()) ∧
    (fsLookup fs (id ++ ".sndx") = none → env.writeErr = false → env.closeErr = false →
      env.renameErr = true → env.concurrentPut = none →
      (addBlockToCache env fs id data).1 = .error "unsuccessful index write of block") := by
  have hfresh' : ¬ (id ++ ".sndx") = env.tmpName := fun e => hfresh e.symm
  refine ⟨fun hp => ?_, fun ha hw hc hr => ?_, fun ha hw hc hr hcp => ?_,
    fun ha hw hc hr hcp => ?_⟩
  · simp [addBlockToCache, h1, hp]
  · refine ⟨?_, ?_, ?_⟩
    · simp [addBlockToCache, h1, ha, hw, hc, hr]
    · simp [addBlockToCache, h1, ha, hw, hc, hr, fsLookup_fsPut_same]
    · have hstep : (addBlockToCache env fs id data).2 =
          fsPut (fsRemove (fsPut (fsPut { fs with dirExists := true } env.tmpName [])
            env.tmpName data) env.tmpName) (id ++ ".sndx") data := by
        simp [addBlockToCache, h1, ha, hw, hc, hr]
      rw [hstep, fsLookup_fsPut_other _ _ _ _ hfresh, fsLookup_fsRemove_same]
  · simp [addBlockToCache, h1, h2, ha, hw, hc, hr, hcp, fsLookup_fsPut_same]
  · simp only [addBlockToCache, h1, h2, ha, hw, hc, hr, hcp]
    have habs : fsLookup (fsPut (fsPut { fs with dirExists := true } env.tmpName [])
        env.tmpName data) (id ++ ".sndx") = none := by
      rw [fsLookup_fsPut_other _ _ _ _ hfresh', fsLookup_fsPut_other _ _ _ _ hfresh']
      exact ha
    simp [habs]

/-- Witness for addBlockToCache_contract on a concrete run. -/
theorem addBlockToCache_contract_witness :
    ({ statErr1 := false, tmpName := "tmp1", writeErr := false, closeErr := false,
       renameErr := false, concurrentPut := none, statErr2 := false : CacheEnv }.statErr1
        = false) ∧
    (fsLookup { dirExists := true, files := [] } ("n77" ++ ".sndx") = none) ∧
    ((addBlockToCache
        { statErr1 := false, tmpName := "tmp1", writeErr := false, closeErr := false,
          renameErr := false, concurrentPut := none, statErr2 := false }
        { dirExists := true, files := [] } "n77" [9, 8, 7]).1 = .ok () ∧
      fsLookup (addBlockToCache
        { statErr1 := false, tmpName := "tmp1", writeErr := false, closeErr := false,
          renameErr := false, concurrentPut := none, statErr2 := false }
        { dirExists := true, files := [] } "n77" [9, 8, 7]).2 ("n77" ++ ".sndx")
        = some [9, 8, 7] ∧
      fsLookup (addBlockToCache
        { statErr1 := false, tmpName := "tmp1", writeErr := false, closeErr := false,
          renameErr := false, concurrentPut := none, statErr2 := false }
        { dirExists := true, files := [] } "n77" [9, 8, 7]).2 "tmp1" = none) :=
  ⟨by decide, by decide,
   (addBlockToCache_contract
      { statErr1 := false, tmpName := "tmp1", writeErr := false, closeErr := false,
        renameErr := false, concurrentPut := none, statErr2 := false }
      { dirExists := true, files := [] } "n77" [9, 8, 7] []
      (by decide) (by decide) (by decide)).2.1
      (by decide) (by decide) (by decide) (by decide)⟩

/-- Claim C9: the logging wrapper forwards every operation's arguments to
the wrapped store and returns exactly the wrapped store's result and error;
for ListBlocks it runs the caller's callback on exactly the metadata the
wrapped store produces and propagates the callback's return value, so the
wrapper is observationally equivalent to the wrapped store. -/
theorem logging_pass_through (s : GoStorage) (pfx id pre : String) (off len : Int)
    (data : List Nat) (cb : BlockMetadata → Option String) :
    (loggingGetBlock s pfx id off len).1 = s.getBlock id off len ∧
    (loggingPutBlock s pfx id data).1 = s.putBlock id data ∧
    (loggingDeleteBlock s pfx id).1 = s.deleteBlock id ∧
    (loggingListBlocks s pfx pre cb).1 = baseListBlocks s pre cb ∧
    (loggingClose s pfx).1 = s.closeResult ∧
    loggingConnectionInfo s = s.connectionInfo := by
  refine ⟨?_, rfl, rfl, rfl, rfl, rfl⟩
  by_cases h : (s.getBlock id off len).1.length < 20 <;> simp [loggingGetBlock, h]

/-- The accumulated buffer after a fold of writes is the initial buffer
followed by the concatenation of all chunk bytes. -/
theorem foldl_write_buffer (chunks : List (List Nat)) (w : ObjectWriter) :
    (chunks.foldl ObjectWriter.write w).buffer = w.buffer ++ chunks.flatten := by
  induction chunks generalizing w with
  | nil => simp
  | cons c rest ih =>
    simp [List.foldl_cons, ih, ObjectWriter.write, List.append_assoc]

set_option maxRecDepth 10000 in
/-- Claim C7: the object ID depends only on the concatenation of the bytes
written, not on how the caller chunks the writes: any sequence of writes
yields the same ID as one write of the concatenation; in particular, 100
zero bytes written as two consecutive 50-byte chunks yield object ID
1d804f1f69df08f3f59070bf962de69433e3d61ac18522a805a84d8c92741340, the same
as 100 zero bytes written at once. -/
theorem objectID_chunk_independent (chunks : List (List Nat)) :
    (chunks.foldl ObjectWriter.write ObjectWriter.new).result =
      (ObjectWriter.new.write chunks.flatten).result ∧
    ((ObjectWriter.new.write (List.replicate 50 0)).write (List.replicate 50 0)).result =
      "1d804f1f69df08f3f59070bf962de69433e3d61ac18522a805a84d8c92741340" ∧
    (ObjectWriter.new.write (List.replicate 100 0)).result =
      "1d804f1f69df08f3f59070bf962de69433e3d61ac18522a805a84d8c92741340" := by
  have h100 : (ObjectWriter.new.write (List.replicate 100 0)).result =
      "1d804f1f69df08f3f59070bf962de69433e3d61ac18522a805a84d8c92741340" := by decide
  have hbuf : (ObjectWriter.new.write (List.replicate 50 0)).write (List.replicate 50 0) =
      ObjectWriter.new.write (List.replicate 100 0) := by
    simp only [ObjectWriter.new, ObjectWriter.write, List.nil_append]
    rw [← List.replicate_add]
  refine ⟨?_, ?_, h100⟩
  · unfold ObjectWriter.result
    rw [foldl_write_buffer]
    simp [ObjectWriter.new, ObjectWriter.write]
  · rw [hbuf]
    exact h100

/-- Blob lookup ignores an appended suffix when the ID is found in the
first part. -/
theorem storeLookup_append_left (st ext : List (String × Blob)) (pid : String)
    (h : (storeLookup st pid).isSome) :
    storeLookup (st ++ ext) pid = storeLookup st pid := by
  induction st with
  | nil => simp [storeLookup] at h
  | cons x rest ih =>
    by_cases hx : (x.1 == pid) = true
    · simp [storeLookup, List.find?, hx]
    · have hx' : (x.1 == pid) = false := by simpa using hx
      have h' : (storeLookup rest pid).isSome := by
        simpa [storeLookup, List.find?, hx'] using h
      simpa [storeLookup, List.find?, hx'] using ih h'

/-- Recovery without commit succeeds on every pack job and leaves the store
untouched, returning the reconstructed infos. -/
theorem recoverAll_false (st : List (String × Blob)) (jobs : List (String × String))
    (hpacks : ∀ j ∈ jobs, ∃ e, storeLookup st j.1 = some (Blob.pack e)) :
    recoverAll st false jobs = .ok (jobInfos st jobs, st) := by
  induction jobs with
  | nil => rfl
  | cons j rest ih =>
    obtain ⟨pid, nid⟩ := j
    obtain ⟨e, he⟩ := hpacks _ (List.mem_cons_self _ _)
    have h1 : RecoverIndexFromPackFile st pid nid false = .ok (packInfos pid e, st) := by
      simp [RecoverIndexFromPackFile, he]
    have hrest := ih (fun j' hj' => hpacks j' (List.mem_cons_of_mem _ hj'))
    simp only [recoverAll, h1, hrest]
    simp [jobInfos, entriesOf, he]

/-- Recovery with commit succeeds on every pack job, returns the same
reconstructed infos, and appends exactly one new index blob per job. -/
theorem recoverAll_true (st : List (String × Blob)) (jobs : List (String × String))
    (ext : List (String × Blob))
    (hpacks : ∀ j ∈ jobs, ∃ e, storeLookup st j.1 = some (Blob.pack e)) :
    recoverAll (st ++ ext) true jobs =
      .ok (jobInfos st jobs, st ++ (ext ++ newBlobs st jobs)) := by
  induction jobs generalizing ext with
  | nil => simp [recoverAll, jobInfos, newBlobs]
  | cons j rest ih =>
    obtain ⟨pid, nid⟩ := j
    obtain ⟨e, he⟩ := hpacks _ (List.mem_cons_self _ _)
    have hsome : (storeLookup st pid).isSome := by rw [he]; rfl
    have happ : storeLookup (st ++ ext) pid = some (Blob.pack e) := by
      rw [storeLookup_append_left _ _ _ hsome, he]
    have h1 : RecoverIndexFromPackFile (st ++ ext) pid nid true =
        .ok (packInfos pid e, st ++ (ext ++ [(nid, Blob.index (packInfos pid e))])) := by
      simp [RecoverIndexFromPackFile, happ]
    have hrest := ih (ext ++ [(nid, Blob.index (packInfos pid e))])
      (fun j' hj' => hpacks j' (List.mem_cons_of_mem _ hj'))
    simp only [recoverAll, h1, hrest]
    simp [jobInfos, newBlobs, entriesOf, he, List.append_assoc]

/-- A store with no index-namespace blob contributes no active infos. -/
theorem activeIndexInfos_nil_of_noindex (st : List (String × Blob))
    (h : ∀ p ∈ st, hasMark indexMark p.1 = false) :
    activeIndexInfos st = [] := by
  unfold activeIndexInfos
  have hf : st.filter (fun p => hasMark indexMark p.1) = [] := by
    rw [List.filter_eq_nil_iff]
    intro p hp
    simp [h p hp]
  rw [hf]
  rfl

/-- With no index blob in the store, every content lookup is
block-not-found. -/
theorem lookup_none_of_noindex (st : List (String × Blob)) (cid : String)
    (h : ∀ p ∈ st, hasMark indexMark p.1 = false) :
    lookupContent st cid = none := by
  simp [lookupContent, activeIndexInfos_nil_of_noindex st h, pickBest]

/-- Active infos distribute over store concatenation. -/
theorem activeIndexInfos_append (a b : List (String × Blob)) :
    activeIndexInfos (a ++ b) = activeIndexInfos a ++ activeIndexInfos b := by
  unfold activeIndexInfos
  rw [List.filter_append, List.foldr_append]
  induction a.filter (fun p => hasMark indexMark p.1) with
  | nil => rfl
  | cons x rest ih => simp [ih, List.append_assoc]

/-- Active infos of a cons cell holding an index blob in the index
namespace. -/
theorem activeIndexInfos_cons_index (nid : String) (infos : List RInfo)
    (tail : List (String × Blob)) (h : hasMark indexMark nid = true) :
    activeIndexInfos ((nid, Blob.index infos) :: tail) = infos ++ activeIndexInfos tail := by
  simp [activeIndexInfos, List.filter_cons, h]

/-- The active infos of the blobs a committing recovery run adds are
exactly the reconstructed infos. -/
theorem activeIndexInfos_newBlobs (st : List (String × Blob))
    (jobs : List (String × String))
    (hn : ∀ j ∈ jobs, hasMark indexMark j.2 = true) :
    activeIndexInfos (newBlobs st jobs) = jobInfos st jobs := by
  induction jobs with
  | nil => rfl
  | cons j rest ih =>
    obtain ⟨pid, nid⟩ := j
    have hj := hn _ (List.mem_cons_self _ _)
    have hrest := ih (fun j' hj' => hn j' (List.mem_cons_of_mem _ hj'))
    simp only [newBlobs, List.map_cons] at *
    rw [activeIndexInfos_cons_index _ _ _ hj]
    simp [jobInfos, hrest, newBlobs]

/-- Reconstructed infos and pack entries agree on per-content-ID counts. -/
theorem packInfosGo_countP (pid : String) (entries : List (String × List Nat))
    (cid : String) (off : Nat) :
    (packInfosGo pid off entries).countP (fun i => i.blockID == cid) =
      entries.countP (fun e => e.1 == cid) := by
  induction entries generalizing off with
  | nil => rfl
  | cons e rest ih =>
    obtain ⟨c, pl⟩ := e
    simp [packInfosGo, List.countP_cons, ih]

/-- Every pack entry yields a reconstructed info whose recorded range slices
the pack's data region back to the entry's payload. -/
theorem packInfosGo_mem (pid : String) (entries : List (String × List Nat))
    (cid : String) (payload : List Nat) (off : Nat)
    (hm : (cid, payload) ∈ entries) :
    ∃ i ∈ packInfosGo pid off entries,
      i.blockID = cid ∧ i.packFile = pid ∧ i.deleted = false ∧
      i.length = payload.length ∧ off ≤ i.packOffset ∧
      ((flattenPayloads entries).drop (i.packOffset - off)).take i.length = payload := by
  induction entries generalizing off with
  | nil => cases hm
  | cons e rest ih =>
    rcases List.mem_cons.mp hm with heq | hm'
    · refine ⟨⟨cid, pid, off, payload.length, 0, false⟩,
        ?_, rfl, rfl, rfl, rfl, le_refl _, ?_⟩
      · rw [← heq]
        exact List.mem_cons_self _ _
      · rw [← heq]
        show ((payload ++ flattenPayloads rest).drop (off - off)).take payload.length = payload
        rw [Nat.sub_self, List.drop_zero, List.take_left]
    · obtain ⟨i, hmem, hbid, hpf, hdel, hlen, hoff, hslice⟩ := ih (off + e.2.length) hm'
      refine ⟨i, List.mem_cons_of_mem _ hmem, hbid, hpf, hdel, hlen, by omega, ?_⟩
      have hstep : (flattenPayloads (e :: rest)).drop (i.packOffset - off) =
          (flattenPayloads rest).drop (i.packOffset - (off + e.2.length)) := by
        show (e.2 ++ flattenPayloads rest).drop (i.packOffset - off) = _
        have harith : i.packOffset - off = e.2.length + (i.packOffset - (off + e.2.length)) := by
          omega
        rw [harith, List.drop_append]
      rw [hstep, hslice]

/-- Membership in the covered pack entries comes from some job's pack. -/
theorem jobEntries_mem (st : List (String × Blob)) (jobs : List (String × String))
    (x : String × List Nat) (h : x ∈ jobEntries st jobs) :
    ∃ j ∈ jobs, x ∈ entriesOf st j.1 := by
  induction jobs with
  | nil => cases h
  | cons j rest ih =>
    rcases List.mem_append.mp (by simpa [jobEntries] using h) with h1 | h2
    · exact ⟨j, List.mem_cons_self _ _, h1⟩
    · obtain ⟨j', hj', hx⟩ := ih (by simpa [jobEntries] using h2)
      exact ⟨j', List.mem_cons_of_mem _ hj', hx⟩

/-- A job's reconstructed infos embed into the run's reconstructed infos. -/
theorem mem_jobInfos (st : List (String × Blob)) (jobs : List (String × String))
    (j : String × String) (i : RInfo) (hj : j ∈ jobs)
    (hi : i ∈ packInfos j.1 (entriesOf st j.1)) : i ∈ jobInfos st jobs := by
  induction jobs with
  | nil => cases hj
  | cons j0 rest ih =>
    rcases List.mem_cons.mp hj with rfl | hj'
    · simp only [jobInfos, List.foldr_cons]
      exact List.mem_append.mpr (Or.inl hi)
    · simp only [jobInfos, List.foldr_cons]
      exact List.mem_append.mpr (Or.inr (by simpa [jobInfos] using ih hj'))

/-- The run's reconstructed infos and the covered pack entries agree on
per-content-ID counts. -/
theorem jobInfos_countP (st : List (String × Blob)) (jobs : List (String × String))
    (cid : String) :
    (jobInfos st jobs).countP (fun i => i.blockID == cid) =
      (jobEntries st jobs).countP (fun e => e.1 == cid) := by
  induction jobs with
  | nil => rfl
  | cons j rest ih =>
    show (packInfos j.1 (entriesOf st j.1) ++ jobInfos st rest).countP
        (fun i => i.blockID == cid) =
      (entriesOf st j.1 ++ jobEntries st rest).countP (fun e => e.1 == cid)
    rw [List.countP_append, List.countP_append, ih]
    simp only [packInfos, packInfosGo_countP]

/-- A list with exactly one element satisfying a predicate filters to the
singleton of any member satisfying it. -/
theorem filter_eq_singleton_of_countP_one {α : Type} (p : α → Bool) (l : List α)
    (x : α) (hc : l.countP p = 1) (hx : x ∈ l) (hpx : p x = true) :
    l.filter p = [x] := by
  have hlen : (l.filter p).length = 1 := by
    rw [← List.countP_eq_length_filter]
    exact hc
  obtain ⟨a, ha⟩ := List.length_eq_one.mp hlen
  have hxf : x ∈ l.filter p := List.mem_filter.mpr ⟨hx, hpx⟩
  rw [ha] at hxf ⊢
  simp only [List.mem_singleton] at hxf
  rw [hxf]

/-- Claim C1: over a store whose index blobs are all gone, recovery with
commit=false returns the same infos as with commit=true and leaves the
store untouched, so previously written content IDs still resolve to
block-not-found; after recovery with commit=true over every pack blob,
every previously written content ID resolves again to its original
bytes. -/
theorem recover_index_contract (st : List (String × Blob)) (jobs : List (String × String))
    (cid : String) (payload : List Nat)
    (hnoidx : ∀ p ∈ st, hasMark indexMark p.1 = false)
    (hpacks : ∀ j ∈ jobs, ∃ e, storeLookup st j.1 = some (Blob.pack e))
    (hnids : ∀ j ∈ jobs, hasMark indexMark j.2 = true)
    (hmem : (cid, payload) ∈ jobEntries st jobs)
    (huniq : (jobEntries st jobs).countP (fun e => e.1 == cid) = 1) :
    recoverAll st false jobs = .ok (jobInfos st jobs, st) ∧
    recoverAll st true jobs = .ok (jobInfos st jobs, st ++ newBlobs st jobs) ∧
    lookupContent st cid = none ∧
    lookupContent (st ++ newBlobs st jobs) cid = some payload := by
  refine ⟨recoverAll_false st jobs hpacks, ?_, lookup_none_of_noindex st cid hnoidx, ?_⟩
  · have h := recoverAll_true st jobs [] hpacks
    simpa using h
  · obtain ⟨jStar, hjmem, hentry⟩ := jobEntries_mem st jobs _ hmem
    obtain ⟨e, he⟩ := hpacks jStar hjmem
    obtain ⟨iStar, hiMem, hbid, hpf, hdel, hlen, _hoff, hslice⟩ :=
      packInfosGo_mem jStar.1 (entriesOf st jStar.1) cid payload 0 hentry
    have hiJob : iStar ∈ jobInfos st jobs := mem_jobInfos st jobs jStar iStar hjmem hiMem
    have hpred : (iStar.blockID == cid) = true := by simp [hbid]
    have hcnt : (jobInfos st jobs).countP (fun i => i.blockID == cid) = 1 := by
      rw [jobInfos_countP]
      exact huniq
    have hact : activeIndexInfos (st ++ newBlobs st jobs) = jobInfos st jobs := by
      rw [activeIndexInfos_append, activeIndexInfos_nil_of_noindex st hnoidx,
        activeIndexInfos_newBlobs st jobs hnids]
      simp
    have hfilter : (jobInfos st jobs).filter (fun i => i.blockID == cid) = [iStar] :=
      filter_eq_singleton_of_countP_one _ _ _ hcnt hiJob hpred
    have hent : entriesOf st jStar.1 = e := by simp [entriesOf, he]
    have hlook : storeLookup (st ++ newBlobs st jobs) iStar.packFile =
        some (Blob.pack (entriesOf st jStar.1)) := by
      rw [hpf, storeLookup_append_left _ _ _ (by rw [he]; rfl), he, hent]
    unfold lookupContent
    rw [hact, hfilter]
    simp only [pickBest]
    rw [if_neg (by simp [hdel])]
    unfold readPackBytes
    rw [hlook]
    have : ((flattenPayloads (entriesOf st jStar.1)).drop iStar.packOffset).take iStar.length
        = payload := by
      have h0 : iStar.packOffset - 0 = iStar.packOffset := Nat.sub_zero _
      rw [← h0]
      exact hslice
    simpa [flattenPayloads] using congrArg some this

/-- Union of disjoint bit ranges is addition: ORing a value below 2^k onto
a multiple of 2^k adds it. -/
theorem lorDisjoint : ∀ (k a b : Nat), b < 2 ^ k → (a * 2 ^ k) ||| b = a * 2 ^ k + b := by
  intro k
  induction k with
  | zero =>
    intro a b hb
    have hb0 : b = 0 := by omega
    simp [hb0]
  | succ k ih =>
    intro a b hb
    have hb2 : b / 2 < 2 ^ k := by
      have h2 : 2 ^ (k + 1) = 2 * 2 ^ k := by ring
      omega
    have hmul : a * 2 ^ (k + 1) = 2 * (a * 2 ^ k) := by ring
    have e1 : a * 2 ^ (k + 1) = Nat.bit false (a * 2 ^ k) := by
      simp only [Nat.bit, cond_false]
      ring
    rcases Nat.mod_two_eq_zero_or_one b with hm | hm
    · have e2 : b = Nat.bit false (b / 2) := by
        simp only [Nat.bit, cond_false]
        omega
      calc a * 2 ^ (k + 1) ||| b
          = Nat.bit false (a * 2 ^ k) ||| Nat.bit false (b / 2) := by rw [← e1, ← e2]
        _ = Nat.bit (false || false) ((a * 2 ^ k) ||| (b / 2)) := Nat.lor_bit _ _ _ _
        _ = 2 * (a * 2 ^ k + b / 2) := by
            rw [ih a _ hb2]
            simp [Nat.bit]
        _ = a * 2 ^ (k + 1) + b := by rw [hmul]; omega
    · have e2 : b = Nat.bit true (b / 2) := by
        simp only [Nat.bit, cond_true]
        omega
      calc a * 2 ^ (k + 1) ||| b
          = Nat.bit false (a * 2 ^ k) ||| Nat.bit true (b / 2) := by rw [← e1, ← e2]
        _ = Nat.bit (false || true) ((a * 2 ^ k) ||| (b / 2)) := Nat.lor_bit _ _ _ _
        _ = 2 * (a * 2 ^ k + b / 2) + 1 := by
            rw [ih a _ hb2]
            simp [Nat.bit]
        _ = a * 2 ^ (k + 1) + b := by rw [hmul]; omega

/-- Big-endian 64-bit decoding inverts the encoder below 2^64. -/
theorem beDecode_u64be (x : Nat) (h : x < 2 ^ 64) : beDecode (u64be x) = x := by
  simp only [beDecode, u64be, List.foldl_cons, List.foldl_nil]
  omega

/-- Big-endian 32-bit decoding inverts the encoder below 2^32. -/
theorem beDecode_u32be (x : Nat) (h : x < 2 ^ 32) : beDecode (u32be x) = x := by
  simp only [beDecode, u32be, List.foldl_cons, List.foldl_nil]
  omega

/-- One step of the pure extra-data fold. -/
theorem extraFold_cons (x : Info) (rest : List Info) (offs : List (String × Nat))
    (ed : List Nat) :
    extraFold (x :: rest) offs ed =
      if x.PackFile ≠ "" then
        match lookupOffset offs x.PackFile with
        | some _ => extraFold rest offs ed
        | none => extraFold rest (offs ++ [(x.PackFile, ed.length % 2 ^ 32)])
            (ed ++ strBytes x.PackFile)
      else extraFold rest offs ed := by
  by_cases hpf : x.PackFile ≠ ""
  · rw [if_pos hpf]
    cases hlk : lookupOffset offs x.PackFile with
    | some o => simp [extraFold, hpf, hlk]
    | none => simp [extraFold, hpf, hlk]
  · rw [if_neg hpf]
    simp [extraFold, hpf]

/-- The extra-data loop is the pure fold when no inline payload occurs. -/
theorem extraLoop_eq_fold (l : List Info) (offs : List (String × Nat)) (ed : List Nat)
    (h : ∀ i ∈ l, i.Payload = []) :
    extraLoop l offs ed = .ok (extraFold l offs ed) := by
  induction l generalizing offs ed with
  | nil => rfl
  | cons it rest ih =>
    have hit : it.Payload = [] := h it (List.mem_cons_self _ _)
    have hlen : ¬ 0 < it.Payload.length := by simp [hit]
    simp only [extraLoop, extraFold, if_neg hlen]
    exact ih _ _ (fun i hi => h i (List.mem_cons_of_mem _ hi))

/-- A successful extra-data loop run means no info carried a payload. -/
theorem extraLoop_ok_no_payload (l : List Info) :
    ∀ (offs : List (String × Nat)) (ed : List Nat) (r : List (String × Nat) × List Nat),
    extraLoop l offs ed = .ok r → ∀ i ∈ l, i.Payload = [] := by
  induction l with
  | nil => intro _ _ _ _ i hi; cases hi
  | cons x rest ih =>
    intro offs ed r hok i hi
    by_cases hx : 0 < x.Payload.length
    · exfalso
      simp only [extraLoop, if_pos hx] at hok
      cases hok
    · simp only [extraLoop, if_neg hx] at hok
      rcases List.mem_cons.mp hi with rfl | hi'
      · simpa using hx
      · exact ih _ _ _ hok i hi'

/-- formatEntry succeeds with the spelled-out body when the pack-file ID is
non-empty. -/
theorem formatEntry_ok (it : Info) (edo : Nat) (offs : List (String × Nat))
    (h : goLen it.PackFile ≠ 0) :
    formatEntry it edo offs = .ok (entryBodyBytes it edo offs) := by
  simp [formatEntry, entryBodyBytes, h]

/-- writeEntry succeeds with the full encoded entry when the key length
matches and the pack-file ID is non-empty. -/
theorem writeEntry_ok (it : Info) (kl : Int) (edo : Nat) (offs : List (String × Nat))
    (hk : ((contentIDToBytes it.BlockID).length : Int) = kl)
    (h : goLen it.PackFile ≠ 0) :
    writeEntry it kl edo offs = .ok (entryEnc it edo offs) := by
  simp [writeEntry, entryEnc, hk, formatEntry_ok it edo offs h]

/-- The entry loop on all-valid entries produces the concatenation of the
per-entry encodings. -/
theorem entriesLoop_ok (kl : Int) (edo : Nat) (offs : List (String × Nat))
    (l : List Info)
    (h : ∀ it ∈ l, ((contentIDToBytes it.BlockID).length : Int) = kl ∧
      goLen it.PackFile ≠ 0) :
    entriesLoop kl edo offs l = .ok ((l.map (fun it => entryEnc it edo offs)).flatten) := by
  induction l with
  | nil => rfl
  | cons it rest ih =>
    obtain ⟨hk, hpf⟩ := h it (List.mem_cons_self _ _)
    have hrest := ih (fun i hi => h i (List.mem_cons_of_mem _ hi))
    simp [entriesLoop, writeEntry_ok it kl edo offs hk hpf, hrest]

/-- A successful entry loop certifies every entry's key length and
non-empty pack-file ID. -/
theorem entriesLoop_ok_checks (kl : Int) (edo : Nat) (offs : List (String × Nat)) :
    ∀ (l : List Info) (bytes : List Nat), entriesLoop kl edo offs l = .ok bytes →
      ∀ it ∈ l, ((contentIDToBytes it.BlockID).length : Int) = kl ∧
        goLen it.PackFile ≠ 0 := by
  intro l
  induction l with
  | nil => intro bytes _ it hit; cases hit
  | cons x rest ih =>
    intro bytes hok it hit
    by_cases hk : ((contentIDToBytes x.BlockID).length : Int) = kl
    · by_cases hpf : goLen x.PackFile = 0
      · exfalso
        simp [entriesLoop, writeEntry, formatEntry, hk, hpf] at hok
      · rcases List.mem_cons.mp hit with rfl | hit'
        · exact ⟨hk, hpf⟩
        · have hw := writeEntry_ok x kl edo offs hk hpf
          simp only [entriesLoop, hw] at hok
          cases hr : entriesLoop kl edo offs rest with
          | error e =>
            rw [hr] at hok
            simp at hok
          | ok rb => exact ih rb hr it hit'
    · exfalso
      simp [entriesLoop, writeEntry, hk] at hok

/-- Structure of a successful Build: the output is the 8-byte header, the
sorted per-entry encodings, then the extra data, with every entry's key
length consistent and pack-file ID non-empty. -/
theorem build_ok_struct (b : List Info) (out : List Nat) (h : Build b = .ok out) :
    ∃ offs ed,
      extraFold (sortedBlocks b) [] [] = (offs, ed) ∧
      (∀ it ∈ sortedBlocks b,
        ((contentIDToBytes it.BlockID).length : Int) = keyLengthOf (sortedBlocks b) ∧
        goLen it.PackFile ≠ 0) ∧
      out = (1 :: intToU8 (keyLengthOf (sortedBlocks b)) ::
          (u16be 20 ++ u32be ((sortedBlocks b).length % 2 ^ 32))) ++
        ((sortedBlocks b).map (fun it =>
          entryEnc it (extraDataOffsetOf (sortedBlocks b).length
            (keyLengthOf (sortedBlocks b))) offs)).flatten ++ ed := by
  unfold Build at h
  cases hext : extraLoop (sortedBlocks b) [] [] with
  | error m =>
    simp only [hext] at h
    exact BuildResult.noConfusion h
  | ok pr =>
    obtain ⟨offs, ed⟩ := pr
    simp only [hext] at h
    cases hloop : entriesLoop (keyLengthOf (sortedBlocks b))
        (extraDataOffsetOf (sortedBlocks b).length (keyLengthOf (sortedBlocks b))) offs
        (sortedBlocks b) with
    | error m =>
      simp only [hloop] at h
      exact BuildResult.noConfusion h
    | ok eb =>
      simp only [hloop] at h
      have hchecks := entriesLoop_ok_checks _ _ _ _ _ hloop
      have hflat := entriesLoop_ok (keyLengthOf (sortedBlocks b))
        (extraDataOffsetOf (sortedBlocks b).length (keyLengthOf (sortedBlocks b)))
        offs (sortedBlocks b) hchecks
      rw [hloop] at hflat
      have heb : eb = ((sortedBlocks b).map (fun it =>
          entryEnc it (extraDataOffsetOf (sortedBlocks b).length
            (keyLengthOf (sortedBlocks b))) offs)).flatten := by
        injection hflat
      have hnp := extraLoop_ok_no_payload (sortedBlocks b) [] [] (offs, ed) hext
      have hfold := extraLoop_eq_fold (sortedBlocks b) [] [] hnp
      rw [hext] at hfold
      have hfold' : extraFold (sortedBlocks b) [] [] = (offs, ed) := by
        injection hfold with h'
        exact h'.symm
      refine ⟨offs, ed, hfold', hchecks, ?_⟩
      injection h with h'
      rw [← h', heb]

/-- Length of a concatenation of equal-length chunks. -/
theorem flatten_length_const (L : Nat) (ls : List (List Nat))
    (h : ∀ x ∈ ls, x.length = L) : ls.flatten.length = ls.length * L := by
  induction ls with
  | nil => simp
  | cons x rest ih =>
    have hx := h x (List.mem_cons_self _ _)
    simp [List.flatten_cons, hx, ih (fun y hy => h y (List.mem_cons_of_mem _ hy)),
      Nat.succ_mul, Nat.add_comm]

/-- Inner slice of a concatenation of equal-length chunks: dropping to the
j-th chunk plus an in-chunk offset and taking within the chunk reads from
that chunk. -/
theorem flatten_slice_inner (L : Nat) (ls : List (List Nat))
    (h : ∀ x ∈ ls, x.length = L) (j k m : Nat) (hj : j < ls.length)
    (hk : k + m ≤ L) (tail : List Nat) :
    ((ls.flatten ++ tail).drop (j * L + k)).take m =
      ((ls.get ⟨j, hj⟩).drop k).take m := by
  induction ls generalizing j tail with
  | nil => simp at hj
  | cons x rest ih =>
    have hx := h x (List.mem_cons_self _ _)
    cases j with
    | zero =>
      simp only [List.flatten_cons, List.append_assoc, Nat.zero_mul, Nat.zero_add]
      rw [List.drop_append_eq_append_drop, List.take_append_eq_append_take]
      have hd1 : (x.drop k).length = x.length - k := by simp
      have hk1 : k - x.length = 0 := by omega
      have hm1 : m - (x.drop k).length = 0 := by omega
      rw [hk1, hm1]
      simp [List.get]
    | succ j' =>
      have harith : (j' + 1) * L + k = x.length + (j' * L + k) := by
        rw [hx]
        ring
      simp only [List.flatten_cons, List.append_assoc]
      rw [harith, List.drop_append]
      exact ih (fun y hy => h y (List.mem_cons_of_mem _ hy)) j' (by simpa using hj) tail

/-- Lookup in the offset table ignores an appended suffix when the key is
already present. -/
theorem lookupOffset_append_of_some (offs ext : List (String × Nat)) (k : String)
    (h : (lookupOffset offs k).isSome) :
    lookupOffset (offs ++ ext) k = lookupOffset offs k := by
  induction offs with
  | nil => simp [lookupOffset] at h
  | cons x rest ih =>
    by_cases hx : (x.1 == k) = true
    · simp [lookupOffset, List.find?, hx]
    · have hx' : (x.1 == k) = false := by simpa using hx
      have h' : (lookupOffset rest k).isSome := by
        simpa [lookupOffset, List.find?, hx'] using h
      simpa [lookupOffset, List.find?, hx'] using ih h'

/-- Lookup of a key just appended to a table that lacked it. -/
theorem lookupOffset_append_self (offs : List (String × Nat)) (k : String) (v : Nat)
    (h : lookupOffset offs k = none) :
    lookupOffset (offs ++ [(k, v)]) k = some v := by
  induction offs with
  | nil => simp [lookupOffset, List.find?]
  | cons x rest ih =>
    by_cases hx : (x.1 == k) = true
    · simp [lookupOffset, List.find?, hx] at h
    · have hx' : (x.1 == k) = false := by simpa using hx
      have h' : lookupOffset rest k = none := by
        simpa [lookupOffset, List.find?, hx'] using h
      simpa [lookupOffset, List.find?, hx'] using ih h'

/-- A found offset is a member of the table. -/
theorem lookupOffset_mem (offs : List (String × Nat)) (k : String) (v : Nat)
    (h : lookupOffset offs k = some v) : (k, v) ∈ offs := by
  induction offs with
  | nil => simp [lookupOffset] at h
  | cons x rest ih =>
    obtain ⟨x1, x2⟩ := x
    by_cases hx : (x1 == k) = true
    · have hx1 : x1 = k := by simpa using hx
      have hx2 : x2 = v := by
        simpa [lookupOffset, List.find?, hx] using h
      rw [hx1, hx2]
      exact List.mem_cons_self _ _
    · have hx' : (x1 == k) = false := by simpa using hx
      have h' : lookupOffset rest k = some v := by
        simpa [lookupOffset, List.find?, hx'] using h
      exact List.mem_cons_of_mem _ (ih h')

/-- The pure fold only appends to the offset table. -/
theorem extraFold_offs_grow (l : List Info) :
    ∀ (offs : List (String × Nat)) (ed : List Nat),
    ∃ tail, (extraFold l offs ed).1 = offs ++ tail := by
  induction l with
  | nil => intro offs ed; exact ⟨[], by simp [extraFold]⟩
  | cons x rest ih =>
    intro offs ed
    rw [extraFold_cons]
    by_cases hpf : x.PackFile ≠ ""
    · rw [if_pos hpf]
      cases hlk : lookupOffset offs x.PackFile with
      | some o => exact ih offs ed
      | none =>
        obtain ⟨tail, htail⟩ := ih (offs ++ [(x.PackFile, ed.length % 2 ^ 32)])
          (ed ++ strBytes x.PackFile)
        exact ⟨(x.PackFile, ed.length % 2 ^ 32) :: tail, by
          rw [htail, List.append_assoc]
          rfl⟩
    · rw [if_neg hpf]
      exact ih offs ed

/-- The pure fold only appends to the extra-data bytes. -/
theorem extraFold_ed_grow (l : List Info) :
    ∀ (offs : List (String × Nat)) (ed : List Nat),
    ∃ tail, (extraFold l offs ed).2 = ed ++ tail := by
  induction l with
  | nil => intro offs ed; exact ⟨[], by simp [extraFold]⟩
  | cons x rest ih =>
    intro offs ed
    rw [extraFold_cons]
    by_cases hpf : x.PackFile ≠ ""
    · rw [if_pos hpf]
      cases hlk : lookupOffset offs x.PackFile with
      | some o => exact ih offs ed
      | none =>
        obtain ⟨tail, htail⟩ := ih (offs ++ [(x.PackFile, ed.length % 2 ^ 32)])
          (ed ++ strBytes x.PackFile)
        exact ⟨strBytes x.PackFile ++ tail, by rw [htail, List.append_assoc]⟩
    · rw [if_neg hpf]
      exact ih offs ed

/-- Every non-empty referenced pack-file ID ends up in the offset table. -/
theorem extraFold_covers (l : List Info) :
    ∀ (offs : List (String × Nat)) (ed : List Nat) (it : Info), it ∈ l →
    it.PackFile ≠ "" → (lookupOffset ((extraFold l offs ed).1) it.PackFile).isSome := by
  induction l with
  | nil => intro _ _ _ hit _; cases hit
  | cons x rest ih =>
    intro offs ed it hit hpf
    rcases List.mem_cons.mp hit with rfl | hit'
    · rw [extraFold_cons, if_pos hpf]
      cases hlk : lookupOffset offs it.PackFile with
      | some o =>
        obtain ⟨tail, htail⟩ := extraFold_offs_grow rest offs ed
        rw [htail, lookupOffset_append_of_some _ _ _ (by rw [hlk]; rfl), hlk]
        rfl
      | none =>
        obtain ⟨tail, htail⟩ := extraFold_offs_grow rest
          (offs ++ [(it.PackFile, ed.length % 2 ^ 32)]) (ed ++ strBytes it.PackFile)
        rw [htail,
          lookupOffset_append_of_some (offs ++ [(it.PackFile, ed.length % 2 ^ 32)]) tail
            it.PackFile (by rw [lookupOffset_append_self offs _ _ hlk]; rfl),
          lookupOffset_append_self offs _ _ hlk]
        rfl
    · rw [extraFold_cons]
      by_cases hx : x.PackFile ≠ ""
      · rw [if_pos hx]
        cases hlk : lookupOffset offs x.PackFile with
        | some o => exact ih offs ed it hit' hpf
        | none => exact ih _ _ it hit' hpf
      · rw [if_neg hx]
        exact ih offs ed it hit' hpf

/-- The offset table stays exact over the pure fold, provided the final
extra data stays below the u32 range. -/
theorem extraFold_exact (l : List Info) :
    ∀ (offs : List (String × Nat)) (ed : List Nat), OffsetsExact offs ed →
    (extraFold l offs ed).2.length < 2 ^ 32 →
    OffsetsExact (extraFold l offs ed).1 (extraFold l offs ed).2 := by
  induction l with
  | nil =>
    intro offs ed hex _
    exact hex
  | cons x rest ih =>
    intro offs ed hex hb
    rw [extraFold_cons] at hb ⊢
    by_cases hpf : x.PackFile ≠ ""
    · rw [if_pos hpf] at hb ⊢
      cases hlk : lookupOffset offs x.PackFile with
      | some o =>
        simp only [hlk] at hb ⊢
        exact ih offs ed hex hb
      | none =>
        simp only [hlk] at hb ⊢
        obtain ⟨tail, htail⟩ := extraFold_ed_grow rest
          (offs ++ [(x.PackFile, ed.length % 2 ^ 32)]) (ed ++ strBytes x.PackFile)
        have hedlt : ed.length < 2 ^ 32 := by
          rw [htail] at hb
          simp only [List.length_append] at hb
          omega
        have hmod : ed.length % 2 ^ 32 = ed.length := Nat.mod_eq_of_lt hedlt
        apply ih
        · intro p hp
          rcases List.mem_append.mp hp with hp1 | hp2
          · obtain ⟨hple, hpslice⟩ := hex p hp1
            constructor
            · simp only [List.length_append]
              omega
            · rw [List.drop_append_eq_append_drop]
              have h1 : p.2 - ed.length = 0 := by omega
              rw [h1, List.drop_zero, List.take_append_eq_append_take]
              have h2 : goLen p.1 - (ed.drop p.2).length = 0 := by
                simp only [List.length_drop]
                omega
              rw [h2, List.take_zero, List.append_nil, hpslice]
          · have hp2' : p = (x.PackFile, ed.length % 2 ^ 32) := by simpa using hp2
            subst hp2'
            constructor
            · show ed.length % 2 ^ 32 + goLen x.PackFile ≤ (ed ++ strBytes x.PackFile).length
              rw [hmod]
              simp [goLen, List.length_append]
            · show ((ed ++ strBytes x.PackFile).drop (ed.length % 2 ^ 32)).take
                  (goLen x.PackFile) = strBytes x.PackFile
              rw [hmod, List.drop_left]
              exact List.take_length _
        · exact hb
    · rw [if_neg hpf] at hb ⊢
      exact ih offs ed hex hb

/-- Containment in the key list coincides with lookup success. -/
theorem contains_eq_lookup_isSome (offs : List (String × Nat)) (k : String) :
    (offs.map Prod.fst).contains k = (lookupOffset offs k).isSome := by
  induction offs with
  | nil => rfl
  | cons x rest ih =>
    by_cases hx : x.1 = k
    · subst hx
      simp [List.contains_cons, lookupOffset, List.find?]
    · have h1 : (k == x.1) = false := by simpa using fun e => hx e.symm
      have h2 : (x.1 == k) = false := by simpa using hx
      simpa [List.contains_cons, lookupOffset, List.find?, h1, h2] using ih

/-- The keys of the fold's offset table are the first-seen pack-file IDs. -/
theorem extraFold_keys (l : List Info) :
    ∀ (offs : List (String × Nat)) (ed : List Nat),
    (extraFold l offs ed).1.map Prod.fst = firstSeen l (offs.map Prod.fst) := by
  induction l with
  | nil => intro offs ed; rfl
  | cons x rest ih =>
    intro offs ed
    rw [extraFold_cons]
    simp only [firstSeen]
    by_cases hpf : x.PackFile ≠ ""
    · rw [if_pos hpf, if_pos hpf, contains_eq_lookup_isSome]
      cases hlk : lookupOffset offs x.PackFile with
      | some o => simp [hlk, ih offs ed]
      | none =>
        simp only [hlk, Option.isSome_none, Bool.false_eq_true, if_false]
        rw [ih]
        simp
    · rw [if_neg hpf, if_neg hpf]
      exact ih offs ed

/-- The fold's extra data is the concatenation of the byte strings of its
offset-table keys, in order. -/
theorem extraFold_bytes (l : List Info) :
    ∀ (offs : List (String × Nat)) (ed : List Nat),
    ed = (((offs.map Prod.fst).map strBytes)).flatten →
    (extraFold l offs ed).2 = ((((extraFold l offs ed).1.map Prod.fst)).map strBytes).flatten := by
  induction l with
  | nil =>
    intro offs ed h
    exact h
  | cons x rest ih =>
    intro offs ed h
    rw [extraFold_cons]
    by_cases hpf : x.PackFile ≠ ""
    · rw [if_pos hpf]
      cases hlk : lookupOffset offs x.PackFile with
      | some o => exact ih offs ed h
      | none =>
        apply ih
        rw [h]
        simp
    · rw [if_neg hpf]
      exact ih offs ed h

/-- First-seen collection keeps its accumulator duplicate-free. -/
theorem firstSeen_nodup (l : List Info) :
    ∀ acc : List String, acc.Nodup → (firstSeen l acc).Nodup := by
  induction l with
  | nil => intro acc h; exact h
  | cons x rest ih =>
    intro acc h
    simp only [firstSeen]
    by_cases hpf : x.PackFile ≠ ""
    · rw [if_pos hpf]
      by_cases hc : acc.contains x.PackFile
      · rw [if_pos hc]
        exact ih acc h
      · rw [if_neg hc]
        apply ih
        have hnm : x.PackFile ∉ acc := by
          intro hmem
          exact hc (List.elem_eq_true_of_mem hmem)
        simp [List.nodup_append, h, hnm]
    · rw [if_neg hpf]
      exact ih acc h

/-- Membership in the first-seen collection is membership in the
accumulator or being some entry's non-empty pack-file ID. -/
theorem firstSeen_mem (l : List Info) :
    ∀ (acc : List String) (p : String),
    (p ∈ firstSeen l acc ↔ p ∈ acc ∨ (p ≠ "" ∧ ∃ it ∈ l, it.PackFile = p)) := by
  induction l with
  | nil =>
    intro acc p
    simp [firstSeen]
  | cons x rest ih =>
    intro acc p
    simp only [firstSeen]
    by_cases hpf : x.PackFile ≠ ""
    · rw [if_pos hpf]
      by_cases hc : acc.contains x.PackFile
      · rw [if_pos hc]
        rw [ih]
        constructor
        · rintro (h1 | ⟨h2, it, hit, h3⟩)
          · exact Or.inl h1
          · exact Or.inr ⟨h2, it, List.mem_cons_of_mem _ hit, h3⟩
        · rintro (h1 | ⟨h2, it, hit, h3⟩)
          · exact Or.inl h1
          · rcases List.mem_cons.mp hit with rfl | hit'
            · left
              rw [← h3]
              exact List.mem_of_elem_eq_true hc
            · exact Or.inr ⟨h2, it, hit', h3⟩
      · rw [if_neg hc]
        rw [ih]
        constructor
        · rintro (h1 | ⟨h2, it, hit, h3⟩)
          · rcases List.mem_append.mp h1 with ha | hb
            · exact Or.inl ha
            · right
              have hp : p = x.PackFile := by simpa using hb
              exact ⟨by rw [hp]; exact hpf, x, List.mem_cons_self _ _, hp.symm⟩
          · exact Or.inr ⟨h2, it, List.mem_cons_of_mem _ hit, h3⟩
        · rintro (h1 | ⟨h2, it, hit, h3⟩)
          · exact Or.inl (List.mem_append.mpr (Or.inl h1))
          · rcases List.mem_cons.mp hit with rfl | hit'
            · left
              apply List.mem_append.mpr
              right
              simp [h3]
            · exact Or.inr ⟨h2, it, hit', h3⟩
    · rw [if_neg hpf]
      rw [ih]
      push_neg at hpf
      constructor
      · rintro (h1 | ⟨h2, it, hit, h3⟩)
        · exact Or.inl h1
        · exact Or.inr ⟨h2, it, List.mem_cons_of_mem _ hit, h3⟩
      · rintro (h1 | ⟨h2, it, hit, h3⟩)
        · exact Or.inl h1
        · rcases List.mem_cons.mp hit with rfl | hit'
          · exact absurd (h3.symm.trans hpf) h2
          · exact Or.inr ⟨h2, it, hit', h3⟩

/-- The timestampAndFlags word: with in-range fields the ORs are plain
field packing. -/
theorem taf_value (ts fv pl : Nat) (hts : ts < 2 ^ 48) (hfv : fv < 2 ^ 8)
    (hpl : pl < 2 ^ 8) :
    ((ts % 2 ^ 64 * 2 ^ 16 % 2 ^ 64 ||| fv % 2 ^ 64 * 2 ^ 8 % 2 ^ 64) ||| pl % 2 ^ 64) =
      ts * 2 ^ 16 + fv * 2 ^ 8 + pl := by
  have h1 : ts % 2 ^ 64 = ts := Nat.mod_eq_of_lt (by omega)
  have h2 : fv % 2 ^ 64 = fv := Nat.mod_eq_of_lt (by omega)
  have h3 : pl % 2 ^ 64 = pl := Nat.mod_eq_of_lt (by omega)
  have h4 : ts * 2 ^ 16 % 2 ^ 64 = ts * 2 ^ 16 := Nat.mod_eq_of_lt (by omega)
  have h5 : fv * 2 ^ 8 % 2 ^ 64 = fv * 2 ^ 8 := Nat.mod_eq_of_lt (by omega)
  rw [h1, h2, h3, h4, h5]
  rw [lorDisjoint 16 ts (fv * 2 ^ 8) (by omega)]
  have houter : ts * 2 ^ 16 + fv * 2 ^ 8 = (ts * 2 ^ 8 + fv) * 2 ^ 8 := by ring
  rw [houter, lorDisjoint 8 (ts * 2 ^ 8 + fv) pl hpl]

/-- The packedOffset word: a sub-2^31 offset, with the tombstone bit added
exactly when deleted. -/
theorem packedOffset_value (po : Nat) (d : Bool) (hpo : po < 2 ^ 31) :
    (if d = true then (po % 2 ^ 32) ||| 2 ^ 31 else po % 2 ^ 32) =
      po + (if d = true then 2 ^ 31 else 0) := by
  have hmod : po % 2 ^ 32 = po := Nat.mod_eq_of_lt (by omega)
  have hlor : po ||| 2 ^ 31 = po + 2 ^ 31 := by
    rw [Nat.lor_comm]
    have h3 := lorDisjoint 31 1 po hpo
    simp only [one_mul] at h3
    rw [h3]
    omega
  cases d with
  | false =>
    simp only [Bool.false_eq_true, if_false, Nat.add_zero]
    exact hmod
  | true =>
    simp only [if_pos rfl]
    rw [hmod, hlor]
    simp

/-- The key length recorded in the layout is the natural key width, for a
non-empty sorted list. -/
theorem keyLengthOf_eq (s : List Info) (h : s ≠ []) :
    keyLengthOf s = (keyLenN s : Int) := by
  cases s with
  | nil => exact absurd rfl h
  | cons it rest => rfl

/-- The 20-byte body length of an encoded entry. -/
theorem entryBodyBytes_length (it : Info) (edo : Nat) (offs : List (String × Nat)) :
    (entryBodyBytes it edo offs).length = 20 := by
  simp [entryBodyBytes, u64be, u32be]

/-- Claim C5 amended: for every builder whose Build succeeds and whose
infos are Go-typed with timestamps below 2^48, pack-file IDs of at most 255
bytes, and pack offsets below 2^31, the output begins with the 8-byte
header (version 1, key-length byte, entry-length 20 as u16, and entry count
as u32 equal to the number of entries, all big-endian), and each 20-byte
entry body carries timestampAndFlags with the timestamp in the high 48
bits, the format-version in the next 8 and the pack-file-ID byte length in
the low 8, and packedOffset with the high bit set exactly when the info is
a deleted tombstone and the real offset in the low 31 bits. -/
theorem build_layout (b : List Info) (out : List Nat) (j : Nat)
    (_hwf : builderWF b) (hok : Build b = .ok out)
    (hval : ∀ i ∈ b, i.GoTyped ∧ i.TimestampSeconds < 2 ^ 48 ∧
      goLen i.PackFile ≤ 255 ∧ i.PackOffset < 2 ^ 31)
    (hcount : b.length < 2 ^ 32)
    (hj : j < (sortedBlocks b).length) :
    out.take 8 = 1 :: intToU8 (keyLengthOf (sortedBlocks b)) ::
      (u16be 20 ++ u32be b.length) ∧
    beDecode ((out.take 8).drop 4) = b.length ∧
    (beDecode ((entryBodyAt out (keyLenN (sortedBlocks b)) j).take 8)) / 2 ^ 16 =
      ((sortedBlocks b).get ⟨j, hj⟩).TimestampSeconds ∧
    (beDecode ((entryBodyAt out (keyLenN (sortedBlocks b)) j).take 8)) / 2 ^ 8 % 2 ^ 8 =
      ((sortedBlocks b).get ⟨j, hj⟩).FormatVersion ∧
    (beDecode ((entryBodyAt out (keyLenN (sortedBlocks b)) j).take 8)) % 2 ^ 8 =
      goLen ((sortedBlocks b).get ⟨j, hj⟩).PackFile ∧
    (beDecode (((entryBodyAt out (keyLenN (sortedBlocks b)) j).drop 12).take 4)) / 2 ^ 31 =
      (if ((sortedBlocks b).get ⟨j, hj⟩).Deleted = true then 1 else 0) ∧
    (beDecode (((entryBodyAt out (keyLenN (sortedBlocks b)) j).drop 12).take 4)) % 2 ^ 31 =
      ((sortedBlocks b).get ⟨j, hj⟩).PackOffset := by
  obtain ⟨offs, ed, hfold, hchecks, hout⟩ := build_ok_struct b out hok
  have hperm := List.perm_insertionSort blockIDLe b
  have hlen : (sortedBlocks b).length = b.length := hperm.length_eq
  have hSne : sortedBlocks b ≠ [] := by
    intro hnil
    rw [hnil] at hj
    simp at hj
  have hklN := keyLengthOf_eq (sortedBlocks b) hSne
  have hkeys : ∀ it ∈ sortedBlocks b,
      (contentIDToBytes it.BlockID).length = keyLenN (sortedBlocks b) := by
    intro it hit
    have h1 := (hchecks it hit).1
    rw [hklN] at h1
    exact_mod_cast h1
  have hen : ∀ e ∈ (sortedBlocks b).map (fun it =>
      entryEnc it (extraDataOffsetOf (sortedBlocks b).length (keyLengthOf (sortedBlocks b)))
        offs), e.length = keyLenN (sortedBlocks b) + 20 := by
    intro e he
    obtain ⟨it, hit, rfl⟩ := List.mem_map.mp he
    simp [entryEnc, entryBodyBytes_length, hkeys it hit, List.length_append]
  have h8 : (1 :: intToU8 (keyLengthOf (sortedBlocks b)) ::
      (u16be 20 ++ u32be ((sortedBlocks b).length % 2 ^ 32))).length = 8 := by
    simp [u16be, u32be]
  have hmodlen : (sortedBlocks b).length % 2 ^ 32 = b.length := by
    rw [hlen, Nat.mod_eq_of_lt hcount]
  have hout2 : out = (1 :: intToU8 (keyLengthOf (sortedBlocks b)) ::
      (u16be 20 ++ u32be ((sortedBlocks b).length % 2 ^ 32))) ++
      (((sortedBlocks b).map (fun it =>
        entryEnc it (extraDataOffsetOf (sortedBlocks b).length
          (keyLengthOf (sortedBlocks b))) offs)).flatten ++ ed) := by
    rw [hout, List.append_assoc]
  have htake8 : out.take 8 = 1 :: intToU8 (keyLengthOf (sortedBlocks b)) ::
      (u16be 20 ++ u32be ((sortedBlocks b).length % 2 ^ 32)) := by
    rw [hout2, ← h8, List.take_left]
  have hi : (sortedBlocks b).get ⟨j, hj⟩ ∈ b :=
    hperm.mem_iff.mp (List.get_mem _ _ _)
  obtain ⟨⟨hL32, hPO32, hts63, hfv8⟩, hts48, hpl255, hpo31⟩ := hval _ hi
  -- the j-th entry body
  have hjm : j < ((sortedBlocks b).map (fun it =>
      entryEnc it (extraDataOffsetOf (sortedBlocks b).length (keyLengthOf (sortedBlocks b)))
        offs)).length := by simpa using hj
  have hbody : entryBodyAt out (keyLenN (sortedBlocks b)) j =
      entryBodyBytes ((sortedBlocks b).get ⟨j, hj⟩)
        (extraDataOffsetOf (sortedBlocks b).length (keyLengthOf (sortedBlocks b))) offs := by
    unfold entryBodyAt
    rw [hout2]
    have harr : 8 + j * (keyLenN (sortedBlocks b) + 20) + keyLenN (sortedBlocks b) =
        (1 :: intToU8 (keyLengthOf (sortedBlocks b)) ::
          (u16be 20 ++ u32be ((sortedBlocks b).length % 2 ^ 32))).length +
        (j * (keyLenN (sortedBlocks b) + 20) + keyLenN (sortedBlocks b)) := by
      rw [h8]
      ring
    rw [harr, List.drop_append]
    rw [flatten_slice_inner (keyLenN (sortedBlocks b) + 20) _ hen j
      (keyLenN (sortedBlocks b)) 20 hjm (le_refl _) ed]
    rw [List.get_map]
    show ((entryEnc ((sortedBlocks b).get ⟨j, hj⟩) _ offs).drop
      (keyLenN (sortedBlocks b))).take 20 = _
    unfold entryEnc
    rw [← hkeys _ (List.get_mem _ _ _), List.drop_left]
    rw [← entryBodyBytes_length ((sortedBlocks b).get ⟨j, hj⟩)
      (extraDataOffsetOf (sortedBlocks b).length (keyLengthOf (sortedBlocks b))) offs]
    exact List.take_length _
  have hb8 : (entryBodyAt out (keyLenN (sortedBlocks b)) j).take 8 =
      u64be ((((sortedBlocks b).get ⟨j, hj⟩).TimestampSeconds % 2 ^ 64 * 2 ^ 16 % 2 ^ 64 |||
        ((sortedBlocks b).get ⟨j, hj⟩).FormatVersion % 2 ^ 64 * 2 ^ 8 % 2 ^ 64) |||
        goLen ((sortedBlocks b).get ⟨j, hj⟩).PackFile % 2 ^ 64) := by
    rw [hbody]
    simp [entryBodyBytes, u64be, u32be]
  have hb12 : ((entryBodyAt out (keyLenN (sortedBlocks b)) j).drop 12).take 4 =
      u32be (if ((sortedBlocks b).get ⟨j, hj⟩).Deleted = true then
          (((sortedBlocks b).get ⟨j, hj⟩).PackOffset % 2 ^ 32) ||| 2 ^ 31
        else ((sortedBlocks b).get ⟨j, hj⟩).PackOffset % 2 ^ 32) := by
    rw [hbody]
    simp [entryBodyBytes, u64be, u32be]
  have htaf := taf_value ((sortedBlocks b).get ⟨j, hj⟩).TimestampSeconds
    ((sortedBlocks b).get ⟨j, hj⟩).FormatVersion
    (goLen ((sortedBlocks b).get ⟨j, hj⟩).PackFile) hts48 hfv8 (by omega)
  have htafdec : beDecode ((entryBodyAt out (keyLenN (sortedBlocks b)) j).take 8) =
      ((sortedBlocks b).get ⟨j, hj⟩).TimestampSeconds * 2 ^ 16 +
      ((sortedBlocks b).get ⟨j, hj⟩).FormatVersion * 2 ^ 8 +
      goLen ((sortedBlocks b).get ⟨j, hj⟩).PackFile := by
    rw [hb8, htaf, beDecode_u64be _ (by omega)]
  have hposum_lt : ((sortedBlocks b).get ⟨j, hj⟩).PackOffset +
      (if ((sortedBlocks b).get ⟨j, hj⟩).Deleted = true then 2 ^ 31 else 0) < 2 ^ 32 := by
    cases hdel : ((sortedBlocks b).get ⟨j, hj⟩).Deleted
    · simp only [Bool.false_eq_true, if_false]
      omega
    · simp only [reduceIte]
      omega
  have hpodec : beDecode (((entryBodyAt out (keyLenN (sortedBlocks b)) j).drop 12).take 4) =
      ((sortedBlocks b).get ⟨j, hj⟩).PackOffset +
      (if ((sortedBlocks b).get ⟨j, hj⟩).Deleted = true then 2 ^ 31 else 0) := by
    rw [hb12, packedOffset_value _ _ hpo31, beDecode_u32be _ hposum_lt]
  refine ⟨by rw [htake8, hmodlen], ?_, ?_, ?_, ?_, ?_, ?_⟩
  · rw [htake8]
    have hdrop : ((1 : Nat) :: intToU8 (keyLengthOf (sortedBlocks b)) ::
        (u16be 20 ++ u32be ((sortedBlocks b).length % 2 ^ 32))).drop 4 =
        u32be ((sortedBlocks b).length % 2 ^ 32) := by
      simp [u16be]
    rw [hdrop, hmodlen, beDecode_u32be _ hcount]
  · rw [htafdec]
    omega
  · rw [htafdec]
    omega
  · rw [htafdec]
    omega
  · rw [hpodec]
    cases hdel : ((sortedBlocks b).get ⟨j, hj⟩).Deleted
    · simp only [hdel, Bool.false_eq_true, if_false]
      omega
    · simp only [hdel, reduceIte]
      omega
  · rw [hpodec]
    cases hdel : ((sortedBlocks b).get ⟨j, hj⟩).Deleted
    · simp only [hdel, Bool.false_eq_true, if_false]
      omega
    · simp only [hdel, reduceIte]
      omega

/-- Claim C5 counterexample: a live (non-deleted) info whose 32-bit pack
offset is 2^31 builds successfully, yet its encoded packedOffset field has
the high bit set — so the high bit is not set exactly when the info is a
deleted tombstone. -/
theorem build_highbit_live_cex :
    highOffsetInfo.Deleted = false ∧
    Build [highOffsetInfo] = .ok hOut ∧
    beDecode (((entryBodyAt hOut 1 0).drop 12).take 4) / 2 ^ 31 = 1 := by decide

/-- Witness for build_layout on a concrete two-entry builder. -/
theorem build_layout_witness :
    builderWF wBuilder ∧
    Build wBuilder = .ok wOut ∧
    (∀ i ∈ wBuilder, i.GoTyped ∧ i.TimestampSeconds < 2 ^ 48 ∧
      goLen i.PackFile ≤ 255 ∧ i.PackOffset < 2 ^ 31) ∧
    wBuilder.length < 2 ^ 32 ∧
    (wOut.take 8 = 1 :: intToU8 (keyLengthOf (sortedBlocks wBuilder)) ::
      (u16be 20 ++ u32be wBuilder.length) ∧
    beDecode ((wOut.take 8).drop 4) = wBuilder.length ∧
    (beDecode ((entryBodyAt wOut (keyLenN (sortedBlocks wBuilder)) 0).take 8)) / 2 ^ 16 =
      ((sortedBlocks wBuilder).get ⟨0, by decide⟩).TimestampSeconds ∧
    (beDecode ((entryBodyAt wOut (keyLenN (sortedBlocks wBuilder)) 0).take 8)) / 2 ^ 8 % 2 ^ 8 =
      ((sortedBlocks wBuilder).get ⟨0, by decide⟩).FormatVersion ∧
    (beDecode ((entryBodyAt wOut (keyLenN (sortedBlocks wBuilder)) 0).take 8)) % 2 ^ 8 =
      goLen ((sortedBlocks wBuilder).get ⟨0, by decide⟩).PackFile ∧
    (beDecode (((entryBodyAt wOut (keyLenN (sortedBlocks wBuilder)) 0).drop 12).take 4)) / 2 ^ 31 =
      (if ((sortedBlocks wBuilder).get ⟨0, by decide⟩).Deleted = true then 1 else 0) ∧
    (beDecode (((entryBodyAt wOut (keyLenN (sortedBlocks wBuilder)) 0).drop 12).take 4)) % 2 ^ 31 =
      ((sortedBlocks wBuilder).get ⟨0, by decide⟩).PackOffset) :=
  ⟨by decide, by decide, by decide, by decide,
   build_layout wBuilder wOut 0 (by decide) (by decide) (by decide) (by decide) (by decide)⟩

/-- The extraDataOffset arithmetic is exact below the u32 range. -/
theorem extraDataOffsetOf_eq (n klN : Nat) (h : 8 + n * (klN + 20) < 2 ^ 32) :
    extraDataOffsetOf n (klN : Int) = 8 + n * (klN + 20) := by
  unfold extraDataOffsetOf intToU32
  have hcast : (8 + (n : Int) * ((klN : Int) + 20)) = ((8 + n * (klN + 20) : Nat) : Int) := by
    push_cast
    ring
  rw [hcast, Int.emod_eq_of_lt (by positivity) (by exact_mod_cast h)]
  exact rfl

/-- Claim C6: for every builder whose Build succeeds (within the format's
u32 addressing range), the encoded entries appear in strictly ascending
order of content ID with no duplicate keys; the extra-data section is
exactly the referenced pack-file-ID strings, deduplicated, concatenated in
first-seen order; and each entry's packFileOffset field points at the start
of its pack-file-ID string within the blob. -/
theorem build_sorted_dedup (b : List Info) (out : List Nat) (j : Nat) (p : String)
    (hwf : builderWF b) (hok : Build b = .ok out) (hsize : out.length < 2 ^ 32)
    (hj : j < (sortedBlocks b).length) :
    List.Pairwise (fun a c : Info =>
      goStrLt a.BlockID.data c.BlockID.data = true) (sortedBlocks b) ∧
    ((sortedBlocks b).map Info.BlockID).Nodup ∧
    out.drop (8 + (sortedBlocks b).length * (keyLenN (sortedBlocks b) + 20)) =
      ((firstSeen (sortedBlocks b) []).map strBytes).flatten ∧
    (firstSeen (sortedBlocks b) []).Nodup ∧
    (p ∈ firstSeen (sortedBlocks b) [] ↔
      p ≠ "" ∧ p ∈ (sortedBlocks b).map Info.PackFile) ∧
    ((out.drop (beDecode (((entryBodyAt out (keyLenN (sortedBlocks b)) j).drop 8).take 4))).take
        (goLen ((sortedBlocks b).get ⟨j, hj⟩).PackFile) =
      strBytes ((sortedBlocks b).get ⟨j, hj⟩).PackFile) := by
  obtain ⟨offs, ed, hfold, hchecks, hout⟩ := build_ok_struct b out hok
  have hperm := List.perm_insertionSort blockIDLe b
  have hSne : sortedBlocks b ≠ [] := by
    intro hnil
    rw [hnil] at hj
    simp at hj
  have hklN := keyLengthOf_eq (sortedBlocks b) hSne
  have hkeys : ∀ it ∈ sortedBlocks b,
      (contentIDToBytes it.BlockID).length = keyLenN (sortedBlocks b) := by
    intro it hit
    have h1 := (hchecks it hit).1
    rw [hklN] at h1
    exact_mod_cast h1
  have hen : ∀ e ∈ (sortedBlocks b).map (fun it =>
      entryEnc it (extraDataOffsetOf (sortedBlocks b).length (keyLengthOf (sortedBlocks b)))
        offs), e.length = keyLenN (sortedBlocks b) + 20 := by
    intro e he
    obtain ⟨it, hit, rfl⟩ := List.mem_map.mp he
    simp [entryEnc, entryBodyBytes_length, hkeys it hit, List.length_append]
  have h8 : (1 :: intToU8 (keyLengthOf (sortedBlocks b)) ::
      (u16be 20 ++ u32be ((sortedBlocks b).length % 2 ^ 32))).length = 8 := by
    simp [u16be, u32be]
  have hflen : (((sortedBlocks b).map (fun it =>
      entryEnc it (extraDataOffsetOf (sortedBlocks b).length (keyLengthOf (sortedBlocks b)))
        offs)).flatten).length =
      (sortedBlocks b).length * (keyLenN (sortedBlocks b) + 20) := by
    rw [flatten_length_const (keyLenN (sortedBlocks b) + 20) _ hen]
    simp
  have hlenout : out.length = 8 + (sortedBlocks b).length * (keyLenN (sortedBlocks b) + 20)
      + ed.length := by
    rw [hout]
    simp only [List.length_append, h8, hflen]
  -- strict ascending order
  have hsorted : List.Pairwise blockIDLe (sortedBlocks b) :=
    List.sorted_insertionSort blockIDLe b
  have hne : List.Pairwise (fun o1 o2 : Info => o1.BlockID ≠ o2.BlockID) (sortedBlocks b) :=
    (List.Perm.pairwise_iff (fun h e => h e.symm) hperm).mpr hwf
  have hstrict : List.Pairwise (fun a c : Info =>
      goStrLt a.BlockID.data c.BlockID.data = true) (sortedBlocks b) := by
    refine (hsorted.and hne).imp ?_
    intro a c ⟨hle, hneq⟩
    have hdata : a.BlockID.data ≠ c.BlockID.data := by
      intro h
      exact hneq (congrArg String.mk h)
    rcases goStrLt_conn a.BlockID.data c.BlockID.data hdata with h | h
    · exact h
    · rw [hle] at h
      exact absurd h (by decide)
  -- the extra-data section
  have hed : ed = ((firstSeen (sortedBlocks b) []).map strBytes).flatten := by
    have hb := extraFold_bytes (sortedBlocks b) [] [] rfl
    have hk := extraFold_keys (sortedBlocks b) [] []
    rw [hfold] at hb hk
    simpa [hk] using hb
  have hsection : out.drop (8 + (sortedBlocks b).length * (keyLenN (sortedBlocks b) + 20)) =
      ((firstSeen (sortedBlocks b) []).map strBytes).flatten := by
    rw [hout]
    have harr : 8 + (sortedBlocks b).length * (keyLenN (sortedBlocks b) + 20) =
        ((1 :: intToU8 (keyLengthOf (sortedBlocks b)) ::
          (u16be 20 ++ u32be ((sortedBlocks b).length % 2 ^ 32))) ++
          ((sortedBlocks b).map (fun it =>
            entryEnc it (extraDataOffsetOf (sortedBlocks b).length
              (keyLengthOf (sortedBlocks b))) offs)).flatten).length := by
      simp only [List.length_append, h8, hflen]
    rw [harr, List.drop_left]
    exact hed
  -- the pack-file pointer of entry j
  have hi : (sortedBlocks b).get ⟨j, hj⟩ ∈ sortedBlocks b := List.get_mem _ _ _
  have hpf0 : goLen ((sortedBlocks b).get ⟨j, hj⟩).PackFile ≠ 0 := (hchecks _ hi).2
  have hpfne : ((sortedBlocks b).get ⟨j, hj⟩).PackFile ≠ "" := by
    intro h
    rw [h] at hpf0
    exact hpf0 rfl
  have hcov := extraFold_covers (sortedBlocks b) [] [] _ hi hpfne
  rw [hfold] at hcov
  obtain ⟨o, hlk⟩ := Option.isSome_iff_exists.mp hcov
  have hedlen : ed.length < 2 ^ 32 := by
    have hlo := congrArg List.length hout
    simp only [List.length_append, h8, hflen] at hlo
    omega
  have hexact := extraFold_exact (sortedBlocks b) [] []
    (fun p hp => absurd hp (List.not_mem_nil p))
    (by rw [hfold]; exact hedlen)
  rw [hfold] at hexact
  obtain ⟨hb1, hb2⟩ := hexact (((sortedBlocks b).get ⟨j, hj⟩).PackFile, o)
    (lookupOffset_mem _ _ _ hlk)
  have hjm : j < ((sortedBlocks b).map (fun it =>
      entryEnc it (extraDataOffsetOf (sortedBlocks b).length (keyLengthOf (sortedBlocks b)))
        offs)).length := by simpa using hj
  have hbody : entryBodyAt out (keyLenN (sortedBlocks b)) j =
      entryBodyBytes ((sortedBlocks b).get ⟨j, hj⟩)
        (extraDataOffsetOf (sortedBlocks b).length (keyLengthOf (sortedBlocks b))) offs := by
    unfold entryBodyAt
    rw [hout, List.append_assoc]
    have harr : 8 + j * (keyLenN (sortedBlocks b) + 20) + keyLenN (sortedBlocks b) =
        (1 :: intToU8 (keyLengthOf (sortedBlocks b)) ::
          (u16be 20 ++ u32be ((sortedBlocks b).length % 2 ^ 32))).length +
        (j * (keyLenN (sortedBlocks b) + 20) + keyLenN (sortedBlocks b)) := by
      rw [h8]
      ring
    rw [harr, List.drop_append]
    rw [flatten_slice_inner (keyLenN (sortedBlocks b) + 20) _ hen j
      (keyLenN (sortedBlocks b)) 20 hjm (le_refl _) ed]
    rw [List.get_map]
    show ((entryEnc ((sortedBlocks b).get ⟨j, hj⟩) _ offs).drop
      (keyLenN (sortedBlocks b))).take 20 = _
    unfold entryEnc
    rw [← hkeys _ hi, List.drop_left]
    rw [← entryBodyBytes_length ((sortedBlocks b).get ⟨j, hj⟩)
      (extraDataOffsetOf (sortedBlocks b).length (keyLengthOf (sortedBlocks b))) offs]
    exact List.take_length _
  have hedo : extraDataOffsetOf (sortedBlocks b).length (keyLengthOf (sortedBlocks b)) =
      8 + (sortedBlocks b).length * (keyLenN (sortedBlocks b) + 20) := by
    rw [hklN]
    exact extraDataOffsetOf_eq _ _ (by omega)
  have hfield : ((entryBodyAt out (keyLenN (sortedBlocks b)) j).drop 8).take 4 =
      u32be ((extraDataOffsetOf (sortedBlocks b).length (keyLengthOf (sortedBlocks b)) + o)
        % 2 ^ 32) := by
    rw [hbody]
    have hlk' := hlk
    simp only [List.get_eq_getElem] at hlk'
    simp [entryBodyBytes, u64be, u32be, hlk']
  have hoBound : o + goLen ((sortedBlocks b).get ⟨j, hj⟩).PackFile ≤ ed.length := hb1
  have hmod32 : (extraDataOffsetOf (sortedBlocks b).length (keyLengthOf (sortedBlocks b)) + o)
      % 2 ^ 32 = 8 + (sortedBlocks b).length * (keyLenN (sortedBlocks b) + 20) + o := by
    rw [hedo]
    apply Nat.mod_eq_of_lt
    omega
  have hdec : beDecode (((entryBodyAt out (keyLenN (sortedBlocks b)) j).drop 8).take 4) =
      8 + (sortedBlocks b).length * (keyLenN (sortedBlocks b) + 20) + o := by
    rw [hfield, hmod32, beDecode_u32be _ (by omega)]
  have hdrop : out.drop (8 + (sortedBlocks b).length * (keyLenN (sortedBlocks b) + 20) + o) =
      ed.drop o := by
    rw [hout, List.append_assoc]
    have harr : 8 + (sortedBlocks b).length * (keyLenN (sortedBlocks b) + 20) + o =
        (1 :: intToU8 (keyLengthOf (sortedBlocks b)) ::
          (u16be 20 ++ u32be ((sortedBlocks b).length % 2 ^ 32))).length +
        ((sortedBlocks b).length * (keyLenN (sortedBlocks b) + 20) + o) := by
      rw [h8]
      ring
    rw [harr, List.drop_append]
    have harr2 : (sortedBlocks b).length * (keyLenN (sortedBlocks b) + 20) + o =
        (((sortedBlocks b).map (fun it =>
          entryEnc it (extraDataOffsetOf (sortedBlocks b).length
            (keyLengthOf (sortedBlocks b))) offs)).flatten).length + o := by
      rw [hflen]
    rw [harr2, List.drop_append]
  refine ⟨hstrict, List.pairwise_map.mpr hne, hsection,
    firstSeen_nodup (sortedBlocks b) [] List.nodup_nil, ?_, ?_⟩
  · rw [firstSeen_mem]
    constructor
    · rintro (h1 | ⟨h2, it, hit, h3⟩)
      · cases h1
      · exact ⟨h2, List.mem_map.mpr ⟨it, hit, h3⟩⟩
    · rintro ⟨h1, h2⟩
      obtain ⟨it, hit, h3⟩ := List.mem_map.mp h2
      exact Or.inr ⟨h1, it, hit, h3⟩
  · rw [hdec, hdrop]
    exact hb2

/-- Witness for build_sorted_dedup on the two-entry builder wBuilder: the
hypotheses hold concretely and the sortedness, dedup and pointer facts
follow for entry 0 and pack-file ID "p1". -/
theorem build_sorted_dedup_witness :
    builderWF wBuilder ∧ Build wBuilder = .ok wOut ∧ wOut.length < 2 ^ 32 ∧
    0 < (sortedBlocks wBuilder).length ∧
    (List.Pairwise (fun a c : Info =>
      goStrLt a.BlockID.data c.BlockID.data = true) (sortedBlocks wBuilder) ∧
    ((sortedBlocks wBuilder).map Info.BlockID).Nodup ∧
    wOut.drop (8 + (sortedBlocks wBuilder).length * (keyLenN (sortedBlocks wBuilder) + 20)) =
      ((firstSeen (sortedBlocks wBuilder) []).map strBytes).flatten ∧
    (firstSeen (sortedBlocks wBuilder) []).Nodup ∧
    ("p1" ∈ firstSeen (sortedBlocks wBuilder) [] ↔
      "p1" ≠ "" ∧ "p1" ∈ (sortedBlocks wBuilder).map Info.PackFile) ∧
    ((wOut.drop
        (beDecode (((entryBodyAt wOut (keyLenN (sortedBlocks wBuilder)) 0).drop 8).take 4))).take
        (goLen ((sortedBlocks wBuilder).get ⟨0, by decide⟩).PackFile) =
      strBytes ((sortedBlocks wBuilder).get ⟨0, by decide⟩).PackFile)) :=
  ⟨by decide, by decide, by decide, by decide,
   build_sorted_dedup wBuilder wOut 0 "p1" (by decide) (by decide) (by decide) (by decide)⟩

/-- Witness for recover_index_contract on a concrete one-pack store. -/
theorem recover_index_contract_witness :
    (∀ p ∈ cStore, hasMark indexMark p.1 = false) ∧
    (∀ j ∈ cJobs, hasMark indexMark j.2 = true) ∧
    ("aa", [1, 2]) ∈ jobEntries cStore cJobs ∧
    (jobEntries cStore cJobs).countP (fun e => e.1 == "aa") = 1 ∧
    (recoverAll cStore false cJobs = .ok (jobInfos cStore cJobs, cStore) ∧
     recoverAll cStore true cJobs = .ok (jobInfos cStore cJobs, cStore ++ newBlobs cStore cJobs) ∧
     lookupContent cStore "aa" = none ∧
     lookupContent (cStore ++ newBlobs cStore cJobs) "aa" = some [1, 2]) :=
  ⟨by decide, by decide, by decide, by decide,
   recover_index_contract cStore cJobs "aa" [1, 2] (by decide)
     (by
       intro j hj
       simp only [cJobs, List.mem_singleton] at hj
       subst hj
       exact ⟨[("aa", [1, 2]), ("bb", [3, 4, 5])], by decide⟩)
     (by decide) (by decide) (by decide)⟩

end Kopia

